import Mathlib

/-!
Verification of the linear_ac region allocator (package `lac`).

Shallow embedding of the core data structures and operations:
* the capacity-bounded recycling free list `Pool` (pool.go);
* the bump allocator `Allocator.alloc`, single-thread path (core of the
  allocator, newest generation);
* `Allocator.reset`, `Allocator.keepAlive` (same file);
* the slice constructors `NewSlice` (generic and legacy method) and `Append`
  (api.go);
* the debug-mode safety checker `checkPointerType` / `checkRecursively` /
  `debugCheck` (debug.go).

Go panics are modelled as `Except.error`; machine integers are `Nat`
(the allocator only handles non-negative sizes and addresses, and the
library explicitly targets 64-bit word-aligned platforms, so the word size
is the constant 8).
-/

namespace LinearAc

/-! ### Generic Pool (pool.go)

`Pool[T]` from the source:

    type Pool[T any] struct {
      Name string; m SpinLock; New func() T; pool []T; Cap int; newCnt int
      Debug bool; MaxNew int; Equal func(a, b T) bool
    }

The factory `New` is modelled by `newFn : Nat → T`: the n-th item ever built
by this pool is `newFn n` (the Go factory is an arbitrary closure; indexing
by the creation counter keeps the model deterministic and executable).
`Equal` may be absent (`nil` in Go), hence an `Option`. The spin lock only
serialises the operations and has no sequential content. -/
structure Pool (T : Type) where
  name : String
  newFn : Nat → T
  pool : List T
  cap : Nat
  newCnt : Nat
  debug : Bool
  maxNew : Nat
  equalFn : Option (T → T → Bool)

/-- `doNew`: bump `newCnt`, abort past the leak ceiling in debug mode,
otherwise build a fresh item. -/
def Pool.doNew {T : Type} (p : Pool T) : Except String (T × Pool T) :=
  if p.debug ∧ 0 < p.maxNew ∧ p.maxNew < p.newCnt + 1 then
    Except.error (p.name ++ ": pool exhausted, potential leak")
  else
    Except.ok (p.newFn p.newCnt, { p with newCnt := p.newCnt + 1 })

/-- `Get`: pop the last pooled item, or fall back to the factory. -/
def Pool.Get {T : Type} (p : Pool T) : Except String (T × Pool T) :=
  match p.pool.getLast? with
  | none => p.doNew
  | some r => Except.ok (r, { p with pool := p.pool.dropLast })

/-- The debug duplicate scan of `Put` (`p.Debug && p.Equal != nil`, then a
linear scan with `p.Equal`). -/
def Pool.dupIn {T : Type} (p : Pool T) (v : T) : Bool :=
  match p.equalFn with
  | some eqf => p.pool.any (fun i => eqf i v)
  | none => false

/-- `Put`: abort on a debug duplicate; append when below capacity, when the
capacity is zero, or in debug mode; otherwise drop the item and report
`false`. -/
def Pool.Put {T : Type} (p : Pool T) (v : T) : Except String (Bool × Pool T) :=
  if p.debug ∧ p.dupIn v then
    Except.error (p.name ++ ": duplicated")
  else if (p.cap = 0 ∨ p.pool.length < p.cap) ∨ p.debug then
    Except.ok (true, { p with pool := p.pool ++ [v] })
  else
    Except.ok (false, p)

/-- `Clear`: drop the whole free list. -/
def Pool.Clear {T : Type} (p : Pool T) : Pool T :=
  { p with pool := [] }

/-- The fill loop of `Reserve`: `cnt` consecutive `doNew` calls. -/
def Pool.doNews {T : Type} : Pool T → Nat → Except String (List T × Pool T)
  | p, 0 => Except.ok ([], p)
  | p, Nat.succ n =>
    match p.doNew with
    | Except.error e => Except.error e
    | Except.ok (x, p1) =>
      match p1.doNews n with
      | Except.error e => Except.error e
      | Except.ok (xs, p2) => Except.ok (x :: xs, p2)

/-- `Reserve(cnt)`: replace the free list with `cnt` factory-built items. -/
def Pool.Reserve {T : Type} (p : Pool T) (cnt : Nat) : Except String (Pool T) :=
  match p.doNews cnt with
  | Except.error e => Except.error e
  | Except.ok (xs, p1) => Except.ok { p1 with pool := xs }

/-- One public pool operation, for stating properties over operation
sequences. -/
inductive PoolOp (T : Type) where
  | get
  | put (v : T)
  | clear
  | reserve (n : Nat)

def Pool.applyOp {T : Type} (p : Pool T) : PoolOp T → Except String (Pool T)
  | PoolOp.get => (p.Get).map (·.2)
  | PoolOp.put v => (p.Put v).map (·.2)
  | PoolOp.clear => Except.ok p.Clear
  | PoolOp.reserve n => p.Reserve n

def Pool.runOps {T : Type} (p : Pool T) : List (PoolOp T) → Except String (Pool T)
  | [] => Except.ok p
  | op :: rest =>
    match p.applyOp op with
    | Except.error e => Except.error e
    | Except.ok p1 => p1.runOps rest

/-! Basic facts about the pool operations. -/

theorem Pool.doNew_pool_eq {T : Type} {p q : Pool T} {x : T}
    (h : p.doNew = Except.ok (x, q)) :
    q.pool = p.pool ∧ q.cap = p.cap ∧ q.debug = p.debug := by
  unfold Pool.doNew at h
  split at h
  · exact absurd h (by simp)
  · injection h with h1
    cases h1
    exact ⟨rfl, rfl, rfl⟩

theorem Pool.doNews_len {T : Type} :
    ∀ (n : Nat) (p q : Pool T) (xs : List T),
    p.doNews n = Except.ok (xs, q) →
    xs.length = n ∧ q.cap = p.cap ∧ q.debug = p.debug := by
  intro n
  induction n with
  | zero =>
    intro p q xs h
    simp only [Pool.doNews] at h
    injection h with h1
    cases h1
    exact ⟨rfl, rfl, rfl⟩
  | succ m ih =>
    intro p q xs h
    simp only [Pool.doNews] at h
    split at h
    · exact absurd h (by simp)
    · rename_i x p1 heq
      split at h
      · exact absurd h (by simp)
      · rename_i ys p2 heq2
        injection h with h1
        cases h1
        have hr := Pool.doNew_pool_eq heq
        have hs := ih p1 q ys heq2
        refine ⟨by simp [hs.1], by rw [hs.2.1, hr.2.1], by rw [hs.2.2, hr.2.2]⟩

/-- One operation never changes the capacity or the debug flag, and in
non-debug mode on a positive-capacity pool it keeps the free list within
the capacity, provided a `reserve` argument never exceeds the capacity. -/
theorem Pool.Put_bound {T : Type} {p q : Pool T} {v : T} {b : Bool}
    (hp : p.Put v = Except.ok (b, q))
    (hdbg : p.debug = false)
    (hcap : 0 < p.cap)
    (hlen : p.pool.length ≤ p.cap) :
    q.cap = p.cap ∧ q.debug = p.debug ∧ q.pool.length ≤ p.cap := by
  unfold Pool.Put at hp
  split at hp
  · exact absurd hp (by simp)
  · split at hp
    · rename_i hc
      injection hp with h1
      cases h1
      refine ⟨rfl, rfl, ?_⟩
      simp only [List.length_append, List.length_cons, List.length_nil]
      rcases hc with (hc | hc) | hc
      · omega
      · omega
      · rw [hdbg] at hc; exact absurd hc (by simp)
    · injection hp with h1
      cases h1
      exact ⟨rfl, rfl, hlen⟩

theorem Pool.Get_bound {T : Type} {p q : Pool T} {x : T}
    (hg : p.Get = Except.ok (x, q))
    (hlen : p.pool.length ≤ p.cap) :
    q.cap = p.cap ∧ q.debug = p.debug ∧ q.pool.length ≤ p.cap := by
  unfold Pool.Get at hg
  split at hg
  · have := Pool.doNew_pool_eq hg
    exact ⟨this.2.1, this.2.2, by rw [this.1]; exact hlen⟩
  · injection hg with h1
    cases h1
    refine ⟨rfl, rfl, ?_⟩
    simp only [List.length_dropLast]
    omega

/-- One operation never changes the capacity or the debug flag, and in
non-debug mode on a positive-capacity pool it keeps the free list within
the capacity, provided a `reserve` argument never exceeds the capacity. -/
theorem Pool.applyOp_bound {T : Type} {p q : Pool T} {op : PoolOp T}
    (hrun : p.applyOp op = Except.ok q)
    (hdbg : p.debug = false)
    (hcap : 0 < p.cap)
    (hlen : p.pool.length ≤ p.cap)
    (hres : ∀ n, op = PoolOp.reserve n → n ≤ p.cap) :
    q.cap = p.cap ∧ q.debug = p.debug ∧ q.pool.length ≤ p.cap := by
  cases op with
  | get =>
    simp only [Pool.applyOp] at hrun
    cases hg : p.Get with
    | error e => rw [hg] at hrun; exact absurd hrun (by simp [Except.map])
    | ok r =>
      obtain ⟨x, p1⟩ := r
      rw [hg] at hrun
      simp only [Except.map] at hrun
      injection hrun with h1
      cases h1
      exact Pool.Get_bound hg hlen
  | put v =>
    simp only [Pool.applyOp] at hrun
    cases hp : p.Put v with
    | error e => rw [hp] at hrun; exact absurd hrun (by simp [Except.map])
    | ok r =>
      obtain ⟨b, p1⟩ := r
      rw [hp] at hrun
      simp only [Except.map] at hrun
      injection hrun with h1
      cases h1
      exact Pool.Put_bound hp hdbg hcap hlen
  | clear =>
    simp only [Pool.applyOp] at hrun
    injection hrun with h1
    cases h1
    exact ⟨rfl, rfl, by simp [Pool.Clear]⟩
  | reserve n =>
    simp only [Pool.applyOp] at hrun
    unfold Pool.Reserve at hrun
    split at hrun
    · exact absurd hrun (by simp)
    · rename_i xs p1 heq
      injection hrun with h1
      cases h1
      have hl := Pool.doNews_len n p p1 xs heq
      exact ⟨hl.2.1, hl.2.2, by simpa [hl.1] using hres n rfl⟩

theorem Pool.runOps_bound {T : Type} :
    ∀ (ops : List (PoolOp T)) (p q : Pool T),
    p.runOps ops = Except.ok q →
    p.debug = false →
    0 < p.cap →
    p.pool.length ≤ p.cap →
    (∀ op ∈ ops, ∀ n, op = PoolOp.reserve n → n ≤ p.cap) →
    q.pool.length ≤ p.cap := by
  intro ops
  induction ops with
  | nil =>
    intro p q hrun _ _ hlen _
    simp only [Pool.runOps] at hrun
    injection hrun with h1
    cases h1
    exact hlen
  | cons op rest ih =>
    intro p q hrun hdbg hcap hlen hres
    simp only [Pool.runOps] at hrun
    split at hrun
    · exact absurd hrun (by simp)
    · rename_i p1 heq
      have hstep := Pool.applyOp_bound heq hdbg hcap hlen
        (fun n hn => hres op (by simp) n hn)
      have := ih p1 q hrun (by rw [hstep.2.1, hdbg]) (by rw [hstep.1]; exact hcap)
        (by rw [hstep.1]; exact hstep.2.2)
        (by intro o ho n hn; rw [hstep.1]; exact hres o (by simp [ho]) n hn)
      rw [hstep.1] at this
      exact this

/-- Concrete pool for the C7 counterexample: capacity 1, no debugging. -/
def p7cex : Pool Nat :=
  { name := "LacChunkPool", newFn := fun n => n, pool := [], cap := 1,
    newCnt := 0, debug := false, maxNew := 0, equalFn := none }

/-- C7, counterexample: the claim says the free-list length never exceeds a
positive capacity after any sequence of Get/Put/Reserve/Clear; but
`Reserve(2)` on a capacity-1 pool leaves 2 items in the free list
(`Pool.Reserve` replaces the free list with `cnt` items regardless of
`Cap`). -/
theorem C7_reserve_exceeds_cap :
    (p7cex.runOps [PoolOp.reserve 2]).map (fun q => q.pool.length) =
      Except.ok 2 ∧ p7cex.cap = 1 ∧ 1 < 2 :=
  ⟨rfl, rfl, by omega⟩

/-- C7 (amended): for a non-debug pool with positive capacity, after any
sequence of Get, Put, Clear and Reserve operations whose Reserve arguments
stay within the capacity, the free-list length never exceeds the capacity;
and a Put arriving when the free list is exactly at capacity leaves the pool
unchanged, returns `false`, and does not abort. -/
theorem C7_pool_cap_amended {T : Type} (p q : Pool T) (ops : List (PoolOp T))
    (hdbg : p.debug = false) (hcap : 0 < p.cap)
    (hres : ∀ op ∈ ops, ∀ n, op = PoolOp.reserve n → n ≤ p.cap)
    (hlen : p.pool.length ≤ p.cap)
    (hrun : p.runOps ops = Except.ok q) :
    q.pool.length ≤ p.cap ∧
    (∀ v, p.pool.length = p.cap → p.Put v = Except.ok (false, p)) := by
  refine ⟨Pool.runOps_bound ops p q hrun hdbg hcap hlen hres, ?_⟩
  intro v hfull
  unfold Pool.Put
  have h1 : ¬ (p.debug = true ∧ p.dupIn v = true) := by
    rw [hdbg]; simp
  have h2 : ¬ ((p.cap = 0 ∨ p.pool.length < p.cap) ∨ p.debug = true) := by
    rw [hdbg]
    simp only [Bool.false_eq_true, or_false]
    omega
  rw [if_neg h1, if_neg h2]

/-- Closed witness for `C7_pool_cap_amended` at a concrete pool and
operation sequence. -/
theorem C7_pool_cap_amended_witness :
    ({ p7cex with pool := [], newCnt := 1 } : Pool Nat).pool.length ≤ p7cex.cap ∧
    (∀ v, p7cex.pool.length = p7cex.cap → p7cex.Put v = Except.ok (false, p7cex)) :=
  C7_pool_cap_amended p7cex { p7cex with pool := [], newCnt := 1 }
    [PoolOp.put 5, PoolOp.get, PoolOp.reserve 1, PoolOp.clear]
    rfl (by simp [p7cex])
    (by
      intro op hop n hn
      subst hn
      simp only [List.mem_cons, List.not_mem_nil, or_false] at hop
      rcases hop with h | h | h | h
      · exact absurd h (by simp)
      · exact absurd h (by simp)
      · injection h with h2
        simp [p7cex, h2]
      · exact absurd h (by simp))
    (by simp [p7cex]) rfl

/-- Concrete pool for the C10 counterexample: zero capacity, debug mode on,
with the pointer-equality function installed and the item 7 already pooled. -/
def p10cex : Pool Nat :=
  { name := "LacChunkPool", newFn := fun n => n, pool := [7], cap := 0,
    newCnt := 1, debug := true, maxNew := 0, equalFn := some (fun a b => a == b) }

/-- C10, counterexample: the claim says a zero-capacity `Put` appends in
every pool state; but in debug mode, putting an item already in the free
list aborts on the duplicate check instead of appending. -/
theorem C10_put_duplicate_aborts :
    p10cex.cap = 0 ∧
      p10cex.Put 7 = Except.error (p10cex.name ++ ": duplicated") := by
  exact ⟨rfl, rfl⟩

/-- C10 (amended): with a zero capacity `cap = 0`, `Put` appends the item
and reports `true` in every pool state in which the debug duplicate check
does not abort — in particular in every non-debug state — and `Put` never
drops an item (it never returns `false`): a zero cap means an unbounded
pool, not a zero-capacity pool that drops every item. -/
theorem C10_put_unbounded_amended {T : Type} (p : Pool T) (v : T)
    (hcap : p.cap = 0) :
    (¬ (p.debug = true ∧ p.dupIn v = true) →
      p.Put v = Except.ok (true, { p with pool := p.pool ++ [v] })) ∧
    (∀ q : Pool T, p.Put v ≠ Except.ok (false, q)) := by
  constructor
  · intro hnd
    unfold Pool.Put
    rw [if_neg (by
      intro hc
      exact hnd ⟨hc.1, hc.2⟩)]
    rw [if_pos (Or.inl (Or.inl hcap))]
  · intro q
    unfold Pool.Put
    by_cases hd : p.debug ∧ p.dupIn v
    · rw [if_pos hd]
      simp
    · rw [if_neg hd]
      rw [if_pos (Or.inl (Or.inl hcap))]
      simp

/-- Closed witness for `C10_put_unbounded_amended` on a concrete non-debug
zero-capacity pool. -/
theorem C10_put_unbounded_amended_witness :
    (p7cex.cap = 0 ∨
      ({ p7cex with cap := 0 } : Pool Nat).Put 9 =
        Except.ok (true, { p7cex with cap := 0, pool := [9] })) ∧
    (∀ q : Pool Nat, ({ p7cex with cap := 0 } : Pool Nat).Put 9 ≠ Except.ok (false, q)) := by
  have h := @C10_put_unbounded_amended Nat { p7cex with cap := 0 } 9 rfl
  refine ⟨Or.inr ?_, h.2⟩
  have := h.1 (by
    intro hc
    exact absurd hc.1 (by simp [p7cex]))
  simpa [p7cex] using this

/-! ### Bump allocator, single-thread path (`Allocator.alloc`, newest
generation of core.go)

The Go loop:

    needAligned := (need + ptrSize + 1) & ^(ptrSize - 1)
    for {
      if ac.curChunk != nil { header = ...; len_ = header.Len; cap_ = header.Cap }
      if len_+int64(needAligned) > cap_ {
        if needAligned > chunkPool.ChunkSize {
          t := make(chunk, 0, need); new_ = ...
        } else { new_ = chunkPool.Get() }
        ac.curChunk = unsafe.Pointer(new_)
        ac.chunks = append(ac.chunks, new_)
      } else {
        header.Len += int64(needAligned)
        ptr := unsafe.Add(header.Data, len_)
        ...
        return ptr
      }
    }

Addresses are `Nat`. The host allocator (both `make` and the chunk pool)
is modelled by a bump of `nextBase`: each newly acquired buffer is placed
at the next free word-aligned address, which captures exactly the
guarantees Go provides for the buffers simultaneously owned by one arena:
they are pairwise disjoint and word-aligned. -/

/-- Machine word size, `ptrSize = int(unsafe.Sizeof(uintptr(0)))`: the
library only supports 64-bit targets, so this is the constant 8. -/
def ptrSize : Nat := 8

/-- `needAligned := (need + ptrSize + 1) & ^(ptrSize - 1)`. On non-negative
values, clearing the low three bits truncates to a multiple of 8. -/
def needAlignedOf (need : Nat) : Nat := (need + ptrSize + 1) / ptrSize * ptrSize

/-- One chunk, i.e. the `sliceHeader` of a `[]byte` buffer: the base
address of its `Data` field, the used length `Len` and the capacity
`Cap`. -/
structure Chunk where
  base : Nat
  len : Nat
  cap : Nat
deriving DecidableEq

/-- Word-align a buffer size: the model host allocator packs buffers at
consecutive word-aligned addresses. -/
def align8 (n : Nat) : Nat := (n + 7) / 8 * 8

/-- State of the single-thread allocation path: the chunk list `ac.chunks`,
the current-chunk pointer `ac.curChunk` (an index into the list), and the
model host allocator cursor `nextBase`: the base address of the next buffer
`make`/`chunkPool.Get` will hand out. -/
structure AcState where
  chunks : List Chunk
  curChunk : Option Nat
  nextBase : Nat
deriving DecidableEq

/-- A fresh single-owner arena: no chunks, nil current-chunk pointer. -/
def AcState.fresh : AcState := { chunks := [], curChunk := none, nextBase := 0 }

/-- The `len_`/`cap_` pair read at the top of the loop: both stay 0 when
`ac.curChunk` is nil. -/
def AcState.curLenCap (st : AcState) : Nat × Nat :=
  match st.curChunk with
  | none => (0, 0)
  | some i =>
    match st.chunks[i]? with
    | none => (0, 0)
    | some c => (c.len, c.cap)

/-- Capacity of the newly acquired chunk: `make(chunk, 0, need)` when
`needAligned > chunkPool.ChunkSize`, otherwise a nominal-size pool chunk. -/
def newChunkCap (chunkSize need : Nat) : Nat :=
  if chunkSize < needAlignedOf need then need else chunkSize

/-- The no-room branch: acquire a new chunk, make it current, append it to
the chunk list. -/
def AcState.grow (st : AcState) (chunkSize need : Nat) : AcState :=
  { chunks := st.chunks ++
      [{ base := st.nextBase, len := 0, cap := newChunkCap chunkSize need }],
    curChunk := some st.chunks.length,
    nextBase := st.nextBase + align8 (newChunkCap chunkSize need) }

/-- The room branch: advance `header.Len` by the aligned size and return
`header.Data + len_`. The `none` arms are unreachable on states whose
current-chunk index is valid (the room test cannot pass on a nil current
chunk, since the aligned size is at least 8). -/
def AcState.bump (st : AcState) (na : Nat) : Option (AcState × Nat) :=
  match st.curChunk with
  | none => none
  | some i =>
    match st.chunks[i]? with
    | none => none
    | some c =>
      some ({ st with chunks := st.chunks.set i { c with len := c.len + na } },
        c.base + c.len)

/-- The unbounded `for` loop of `alloc`, with explicit fuel; `none` is
non-termination within the given fuel (or an unreachable invalid state). -/
def allocLoop (chunkSize need : Nat) : Nat → AcState → Option (AcState × Nat)
  | 0, _ => none
  | Nat.succ fuel, st =>
    if (st.curLenCap).2 < (st.curLenCap).1 + needAlignedOf need then
      allocLoop chunkSize need fuel (st.grow chunkSize need)
    else
      st.bump (needAlignedOf need)

/-- `alloc(need, zero)` on the single-thread path (`refCnt == 1`). Whenever
the Go loop terminates at all it does so within two iterations — at most one
chunk acquisition — so fuel 2 is exact (a second acquisition can only come
from the diverging oversized case, which never terminates at any fuel). The
`zero` flag only clears the returned bytes and does not affect the
allocation state. -/
def alloc (chunkSize need : Nat) (st : AcState) : Option (AcState × Nat) :=
  allocLoop chunkSize need 2 st

theorem needAlignedOf_ge (need : Nat) : need + 2 ≤ needAlignedOf need := by
  unfold needAlignedOf ptrSize
  omega

theorem needAlignedOf_mod8 (need : Nat) : needAlignedOf need % 8 = 0 := by
  unfold needAlignedOf ptrSize
  omega

theorem align8_mod8 (n : Nat) : align8 n % 8 = 0 := by
  unfold align8
  omega

theorem le_align8 (n : Nat) : n ≤ align8 n := by
  unfold align8
  omega

/-- C1: the spec says an oversized request acquires one standalone buffer
large enough for the request and then returns from it; but the code sizes
the standalone buffer with `make(chunk, 0, need)` while the loop needs
`needAligned ≥ need + 2` free bytes, so the room test fails again on the
fresh buffer and the loop acquires buffers forever: `alloc` does not
terminate for any request whose aligned size exceeds the nominal chunk
size (whatever fuel the loop is given, it runs out). -/
theorem C1_oversized_alloc_diverges (chunkSize need : Nat)
    (hbig : chunkSize < needAlignedOf need) :
    ∀ (fuel : Nat) (st : AcState),
    (st.curLenCap).2 < (st.curLenCap).1 + needAlignedOf need →
    allocLoop chunkSize need fuel st = none := by
  intro fuel
  induction fuel with
  | zero => intro st _; rfl
  | succ m ih =>
    intro st hroom
    simp only [allocLoop]
    rw [if_pos hroom]
    apply ih
    have hcap : newChunkCap chunkSize need = need := by
      unfold newChunkCap
      rw [if_pos hbig]
    have hcur : (st.grow chunkSize need).curLenCap = (0, need) := by
      unfold AcState.grow AcState.curLenCap
      simp only [hcap]
      rw [List.getElem?_concat_length]
    rw [hcur]
    have := needAlignedOf_ge need
    simpa using by omega

/-- Closed witness for `C1_oversized_alloc_diverges`: with the nominal
chunk size 8192, the request `need = 8192` has aligned size 8200 and makes
the loop spin out any amount of fuel on a fresh arena. -/
theorem C1_oversized_alloc_diverges_witness :
    8192 < needAlignedOf 8192 ∧
    allocLoop 8192 8192 5 AcState.fresh = none :=
  ⟨by decide, C1_oversized_alloc_diverges 8192 8192 (by decide) 5 AcState.fresh (by decide)⟩

/-- Shared divergence lemma for the oversized branch: when the aligned size
exceeds the nominal chunk size, the freshly made buffer (`make(chunk, 0,
need)`) never passes the room test, so the loop runs out of any fuel. -/
theorem allocLoop_oversized_none (chunkSize need : Nat)
    (hbig : chunkSize < needAlignedOf need) :
    ∀ (fuel : Nat) (st : AcState),
    (st.curLenCap).2 < (st.curLenCap).1 + needAlignedOf need →
    allocLoop chunkSize need fuel st = none := by
  intro fuel
  induction fuel with
  | zero => intro st _; rfl
  | succ m ih =>
    intro st hroom
    simp only [allocLoop]
    rw [if_pos hroom]
    apply ih
    have hcap : newChunkCap chunkSize need = need := by
      unfold newChunkCap
      rw [if_pos hbig]
    have hcur : (st.grow chunkSize need).curLenCap = (0, need) := by
      unfold AcState.grow AcState.curLenCap
      simp only [hcap]
      rw [List.getElem?_concat_length]
    rw [hcur]
    have := needAlignedOf_ge need
    simpa using by omega

/-- Modelled from the spec: "the smallest multiple of the machine word size
that is greater than or equal to n" — the consumption C2 claims for
`alloc`, for comparison with `needAlignedOf`. -/
def leastWordMultipleGE (n : Nat) : Nat := (n + ptrSize - 1) / ptrSize * ptrSize

theorem leastWordMultipleGE_spec (n : Nat) :
    leastWordMultipleGE n % 8 = 0 ∧ n ≤ leastWordMultipleGE n ∧
    (∀ m, m % 8 = 0 → n ≤ m → leastWordMultipleGE n ≤ m) := by
  unfold leastWordMultipleGE ptrSize
  refine ⟨by omega, by omega, ?_⟩
  intro m h1 h2
  omega

/-- Total used bytes over the chunk list. -/
def AcState.sumLen (st : AcState) : Nat :=
  (st.chunks.map Chunk.len).sum

/-! Layout invariant: the buffers an arena owns are laid out consecutively
by the model host allocator, each one word-aligned, with its used length
within its capacity. -/

/-- Chunks packed consecutively from cursor `b`. -/
def packedFrom : Nat → List Chunk → Prop
  | _, [] => True
  | b, c :: rest =>
      c.base = b ∧ c.len ≤ c.cap ∧ c.len % 8 = 0 ∧
        packedFrom (b + align8 c.cap) rest

/-- Host cursor after laying out the chunks from `b`. -/
def endFrom : Nat → List Chunk → Nat
  | b, [] => b
  | b, c :: rest => endFrom (b + align8 c.cap) rest

/-- Invariant of the single-thread allocation state: the chunks are packed
from some word-aligned start, the host cursor sits at their end, and the
current-chunk pointer designates the last chunk (or is nil on a fresh
arena). -/
def AcInv (st : AcState) : Prop :=
  ∃ b0, b0 % 8 = 0 ∧ packedFrom b0 st.chunks ∧
    st.nextBase = endFrom b0 st.chunks ∧
    ((st.curChunk = none ∧ st.chunks = []) ∨
      (st.curChunk = some (st.chunks.length - 1) ∧ st.chunks ≠ []))

theorem AcInv_fresh : AcInv AcState.fresh :=
  ⟨0, rfl, trivial, rfl, Or.inl ⟨rfl, rfl⟩⟩

theorem endFrom_ge : ∀ (l : List Chunk) (b : Nat), b ≤ endFrom b l := by
  intro l
  induction l with
  | nil => intro b; exact Nat.le_refl b
  | cons c rest ih =>
    intro b
    calc b ≤ b + align8 c.cap := Nat.le_add_right _ _
    _ ≤ endFrom (b + align8 c.cap) rest := ih _

theorem endFrom_mod8 : ∀ (l : List Chunk) (b : Nat), b % 8 = 0 →
    endFrom b l % 8 = 0 := by
  intro l
  induction l with
  | nil => intro b hb; exact hb
  | cons c rest ih =>
    intro b hb
    apply ih
    have := align8_mod8 c.cap
    omega

theorem endFrom_append : ∀ (l : List Chunk) (b : Nat) (c : Chunk),
    endFrom b (l ++ [c]) = endFrom b l + align8 c.cap := by
  intro l
  induction l with
  | nil => intro b c; rfl
  | cons d rest ih =>
    intro b c
    exact ih _ c

theorem packedFrom_append : ∀ (l : List Chunk) (b : Nat) (c : Chunk),
    packedFrom b l → c.base = endFrom b l → c.len ≤ c.cap → c.len % 8 = 0 →
    packedFrom b (l ++ [c]) := by
  intro l
  induction l with
  | nil =>
    intro b c _ hbase hlc hm
    exact ⟨hbase, hlc, hm, trivial⟩
  | cons d rest ih =>
    intro b c hp hbase hlc hm
    exact ⟨hp.1, hp.2.1, hp.2.2.1, ih _ c hp.2.2.2 hbase hlc hm⟩

/-- Per-chunk facts extracted from the layout invariant. -/
theorem packedFrom_get : ∀ (l : List Chunk) (b : Nat), packedFrom b l →
    ∀ (i : Nat) (c : Chunk), l[i]? = some c →
    c.len ≤ c.cap ∧ c.len % 8 = 0 ∧ b ≤ c.base ∧
      c.base + align8 c.cap ≤ endFrom b l := by
  intro l
  induction l with
  | nil => intro b _ i c hc; simp at hc
  | cons d rest ih =>
    intro b hp i c hc
    cases i with
    | zero =>
      simp only [List.getElem?_cons_zero] at hc
      injection hc with hc
      subst hc
      refine ⟨hp.2.1, hp.2.2.1, by rw [hp.1], ?_⟩
      rw [hp.1]
      calc b + align8 d.cap ≤ endFrom (b + align8 d.cap) rest := endFrom_ge _ _
      _ = endFrom b (d :: rest) := rfl
    | succ j =>
      simp only [List.getElem?_cons_succ] at hc
      have := ih (b + align8 d.cap) hp.2.2.2 j c hc
      refine ⟨this.1, this.2.1, ?_, this.2.2.2⟩
      calc b ≤ b + align8 d.cap := Nat.le_add_right _ _
      _ ≤ c.base := this.2.2.1

/-- Every chunk base is word-aligned when the layout starts aligned. -/
theorem packedFrom_get_mod8 : ∀ (l : List Chunk) (b : Nat), packedFrom b l →
    b % 8 = 0 → ∀ (i : Nat) (c : Chunk), l[i]? = some c → c.base % 8 = 0 := by
  intro l
  induction l with
  | nil => intro b _ _ i c hc; simp at hc
  | cons d rest ih =>
    intro b hp hb i c hc
    cases i with
    | zero =>
      simp only [List.getElem?_cons_zero] at hc
      injection hc with hc
      subst hc
      rw [hp.1]; exact hb
    | succ j =>
      simp only [List.getElem?_cons_succ] at hc
      have hb8 : (b + align8 d.cap) % 8 = 0 := by
        have := align8_mod8 d.cap
        omega
      exact ih (b + align8 d.cap) hp.2.2.2 hb8 j c hc

/-- Distinct chunks occupy disjoint address blocks, in list order. -/
theorem packedFrom_ordered : ∀ (l : List Chunk) (b : Nat), packedFrom b l →
    ∀ (i j : Nat) (c d : Chunk), i < j → l[i]? = some c → l[j]? = some d →
    c.base + align8 c.cap ≤ d.base := by
  intro l
  induction l with
  | nil => intro b _ i j c d _ hc _; simp at hc
  | cons e rest ih =>
    intro b hp i j c d hij hc hd
    cases i with
    | zero =>
      simp only [List.getElem?_cons_zero] at hc
      injection hc with hc
      subst hc
      obtain ⟨j1, rfl⟩ : ∃ j1, j = j1 + 1 := ⟨j - 1, by omega⟩
      simp only [List.getElem?_cons_succ] at hd
      have := (packedFrom_get rest (b + align8 e.cap) hp.2.2.2 j1 d hd).2.2.1
      rw [hp.1]
      exact this
    | succ i1 =>
      obtain ⟨j1, rfl⟩ : ∃ j1, j = j1 + 1 := ⟨j - 1, by omega⟩
      simp only [List.getElem?_cons_succ] at hc hd
      exact ih _ hp.2.2.2 i1 j1 c d (by omega) hc hd

/-! List index bookkeeping for `List.set`. -/

theorem getElem?_set_same {α : Type} : ∀ (l : List α) (i : Nat) (c x : α),
    l[i]? = some c → (l.set i x)[i]? = some x := by
  intro l
  induction l with
  | nil => intro i c x hc; simp at hc
  | cons d rest ih =>
    intro i c x hc
    cases i with
    | zero => simp
    | succ j =>
      simp only [List.getElem?_cons_succ] at hc
      simp only [List.set_cons_succ, List.getElem?_cons_succ]
      exact ih j c x hc

theorem getElem?_set_other {α : Type} : ∀ (l : List α) (i j : Nat) (x : α),
    i ≠ j → (l.set i x)[j]? = l[j]? := by
  intro l
  induction l with
  | nil => intro i j x _; simp
  | cons d rest ih =>
    intro i j x hij
    cases i with
    | zero =>
      cases j with
      | zero => exact absurd rfl hij
      | succ j1 => simp
    | succ i1 =>
      cases j with
      | zero => simp
      | succ j1 =>
        simp only [List.set_cons_succ, List.getElem?_cons_succ]
        exact ih i1 j1 x (by omega)

theorem set_concat {α : Type} : ∀ (l : List α) (c x : α),
    (l ++ [c]).set l.length x = l ++ [x] := by
  intro l
  induction l with
  | nil => intro c x; rfl
  | cons d rest ih =>
    intro c x
    simp only [List.cons_append, List.length_cons, List.set_cons_succ]
    rw [ih c x]

theorem packedFrom_set : ∀ (l : List Chunk) (b i : Nat) (c : Chunk) (n : Nat),
    packedFrom b l → l[i]? = some c → n ≤ c.cap → n % 8 = 0 →
    packedFrom b (l.set i { c with len := n }) := by
  intro l
  induction l with
  | nil => intro b i c n _ hc _ _; simp at hc
  | cons d rest ih =>
    intro b i c n hp hc hn hm
    cases i with
    | zero =>
      simp only [List.getElem?_cons_zero] at hc
      injection hc with hc
      subst hc
      exact ⟨hp.1, hn, hm, hp.2.2.2⟩
    | succ j =>
      simp only [List.getElem?_cons_succ] at hc
      exact ⟨hp.1, hp.2.1, hp.2.2.1, ih _ j c n hp.2.2.2 hc hn hm⟩

theorem endFrom_set : ∀ (l : List Chunk) (b i : Nat) (c : Chunk) (n : Nat),
    l[i]? = some c → endFrom b (l.set i { c with len := n }) = endFrom b l := by
  intro l
  induction l with
  | nil => intro b i c n hc; simp at hc
  | cons d rest ih =>
    intro b i c n hc
    cases i with
    | zero =>
      simp only [List.getElem?_cons_zero] at hc
      injection hc with hc
      subst hc
      rfl
    | succ j =>
      simp only [List.getElem?_cons_succ] at hc
      simp only [List.set_cons_succ]
      exact ih _ j c n hc

theorem sumLen_set : ∀ (l : List Chunk) (i : Nat) (c x : Chunk),
    l[i]? = some c →
    ((l.set i x).map Chunk.len).sum + c.len = (l.map Chunk.len).sum + x.len := by
  intro l
  induction l with
  | nil => intro i c x hc; simp at hc
  | cons d rest ih =>
    intro i c x hc
    cases i with
    | zero =>
      simp only [List.getElem?_cons_zero] at hc
      injection hc with hc
      subst hc
      simp only [List.set_cons_zero, List.map_cons, List.sum_cons]
      omega
    | succ j =>
      simp only [List.getElem?_cons_succ] at hc
      simp only [List.set_cons_succ, List.map_cons, List.sum_cons]
      have := ih j c x hc
      omega

/-- The two shapes of a successful `alloc`: either the current chunk has
room and its length is advanced in place, or exactly one new chunk is
acquired (with room for the request) and the allocation is served from its
start. -/
theorem alloc_cases {chunkSize need : Nat} {st st' : AcState} {addr : Nat}
    (h : alloc chunkSize need st = some (st', addr)) :
    (∃ i c, st.curChunk = some i ∧ st.chunks[i]? = some c ∧
      c.len + needAlignedOf need ≤ c.cap ∧
      st' = { st with chunks := st.chunks.set i ({ c with len := c.len + needAlignedOf need }) } ∧
      addr = c.base + c.len) ∨
    ((st.curLenCap).2 < (st.curLenCap).1 + needAlignedOf need ∧
      needAlignedOf need ≤ newChunkCap chunkSize need ∧
      st' = { chunks :=
                st.chunks ++ [{ base := st.nextBase, len := needAlignedOf need, cap := newChunkCap chunkSize need }],
              curChunk := some st.chunks.length,
              nextBase := st.nextBase + align8 (newChunkCap chunkSize need) } ∧
      addr = st.nextBase) := by
  unfold alloc allocLoop at h
  by_cases h1 : (st.curLenCap).2 < (st.curLenCap).1 + needAlignedOf need
  · rw [if_pos h1] at h
    unfold allocLoop at h
    right
    by_cases h2 : ((st.grow chunkSize need).curLenCap).2 <
        ((st.grow chunkSize need).curLenCap).1 + needAlignedOf need
    · rw [if_pos h2] at h
      exact absurd h (by simp [allocLoop])
    · rw [if_neg h2] at h
      have hcur : (st.grow chunkSize need).curLenCap =
          (0, newChunkCap chunkSize need) := by
        unfold AcState.grow AcState.curLenCap
        simp only
        rw [List.getElem?_concat_length]
      rw [hcur] at h2
      simp only at h2
      unfold AcState.bump at h
      split at h
      · exact absurd h (by simp)
      · rename_i i hcuri
        split at h
        · exact absurd h (by simp)
        · rename_i c hci
          have hieq : i = st.chunks.length := by
            have : (st.grow chunkSize need).curChunk = some st.chunks.length := rfl
            rw [this] at hcuri
            injection hcuri with hcuri
            exact hcuri.symm
          subst hieq
          have hceq : c = { base := st.nextBase, len := 0, cap := newChunkCap chunkSize need } := by
            have : (st.grow chunkSize need).chunks[st.chunks.length]? =
                some { base := st.nextBase, len := 0, cap := newChunkCap chunkSize need } := by
              unfold AcState.grow
              simp only
              rw [List.getElem?_concat_length]
            rw [this] at hci
            injection hci with hci
            exact hci.symm
          subst hceq
          injection h with h
          injection h with hst haddr
          refine ⟨h1, by omega, ?_, by rw [← haddr]; simp⟩
          rw [← hst]
          simp [AcState.grow, set_concat]
  · rw [if_neg h1] at h
    left
    unfold AcState.bump at h
    split at h
    · exact absurd h (by simp)
    · rename_i i hcur
      split at h
      · exact absurd h (by simp)
      · rename_i c hc
        injection h with h
        injection h with hst haddr
        have hlc : st.curLenCap = (c.len, c.cap) := by
          simp [AcState.curLenCap, hcur, hc]
        rw [hlc] at h1
        simp only at h1
        refine ⟨i, c, hcur, hc, by omega, ?_, haddr.symm⟩
        rw [← hst, hcur]

/-- The set of addresses currently in use (allocated) in some chunk. -/
def ASet (st : AcState) (a : Nat) : Prop :=
  ∃ c ∈ st.chunks, c.base ≤ a ∧ a < c.base + c.len

/-- Every chunk persists across a step with the same identity (base and
capacity) and a monotonically non-decreasing used length. -/
def Persists (s s' : AcState) : Prop :=
  ∀ (i : Nat) (c : Chunk), s.chunks[i]? = some c →
    ∃ c' : Chunk, s'.chunks[i]? = some c' ∧
      c'.base = c.base ∧ c'.cap = c.cap ∧ c.len ≤ c'.len

theorem Persists.refl (s : AcState) : Persists s s :=
  fun _ c hc => ⟨c, hc, rfl, rfl, Nat.le_refl _⟩

theorem Persists.trans {s1 s2 s3 : AcState}
    (h12 : Persists s1 s2) (h23 : Persists s2 s3) : Persists s1 s3 := by
  intro i c hc
  obtain ⟨c2, hc2, hb2, hp2, hl2⟩ := h12 i c hc
  obtain ⟨c3, hc3, hb3, hp3, hl3⟩ := h23 i c2 hc2
  exact ⟨c3, hc3, by rw [hb3, hb2], by rw [hp3, hp2], by omega⟩

theorem mem_of_getElem? {α : Type} : ∀ (l : List α) (i : Nat) (a : α),
    l[i]? = some a → a ∈ l := by
  intro l
  induction l with
  | nil => intro i a h; simp at h
  | cons d rest ih =>
    intro i a h
    cases i with
    | zero =>
      simp only [List.getElem?_cons_zero] at h
      injection h with h
      subst h
      exact List.mem_cons_self _ _
    | succ j =>
      simp only [List.getElem?_cons_succ] at h
      exact List.mem_cons_of_mem _ (ih j a h)

theorem getElem?_of_mem {α : Type} : ∀ (l : List α) (a : α),
    a ∈ l → ∃ i : Nat, l[i]? = some a := by
  intro l
  induction l with
  | nil => intro a h; simp at h
  | cons d rest ih =>
    intro a h
    rcases List.mem_cons.mp h with h | h
    · exact ⟨0, by simp [h]⟩
    · obtain ⟨i, hi⟩ := ih a h
      exact ⟨i + 1, by simpa using hi⟩

theorem getElem?_append_left {α : Type} : ∀ (l l' : List α) (i : Nat) (a : α),
    l[i]? = some a → (l ++ l')[i]? = some a := by
  intro l
  induction l with
  | nil => intro l' i a h; simp at h
  | cons d rest ih =>
    intro l' i a h
    cases i with
    | zero => simpa using h
    | succ j =>
      simp only [List.getElem?_cons_succ] at h
      simpa using ih l' j a h

/-- Effect of one successful `alloc` step: it preserves the layout
invariant, returns a word-aligned address, keeps every chunk (its length
only growing, never past its capacity), consumes exactly the aligned size,
and extends the in-use address set by exactly the returned range, which was
previously unused. -/
theorem alloc_step {chunkSize need : Nat} {st st' : AcState} {addr : Nat}
    (hinv : AcInv st) (h : alloc chunkSize need st = some (st', addr)) :
    AcInv st' ∧ addr % 8 = 0 ∧ Persists st st' ∧
    st'.sumLen = st.sumLen + needAlignedOf need ∧
    (∀ a, ASet st' a ↔ (ASet st a ∨ (addr ≤ a ∧ a < addr + needAlignedOf need))) ∧
    (∀ a, addr ≤ a → a < addr + needAlignedOf need → ¬ ASet st a) := by
  obtain ⟨b0, hb0, hpack, hnext, hcur⟩ := hinv
  rcases alloc_cases h with ⟨i, c, hci, hgc, hroom, hst, haddr⟩ |
    ⟨hnoroom, hfits, hst, haddr⟩
  · -- bump in place at index i
    subst hst
    subst haddr
    have hget := packedFrom_get _ _ hpack i c hgc
    have hbase8 := packedFrom_get_mod8 _ _ hpack hb0 i c hgc
    have hna8 := needAlignedOf_mod8 need
    have hne : st.chunks ≠ [] := by
      intro hemp
      rw [hemp] at hgc
      simp at hgc
    refine ⟨?_, by omega, ?_, ?_, ?_, ?_⟩
    · refine ⟨b0, hb0, ?_, ?_, ?_⟩
      · exact packedFrom_set _ _ i c _ hpack hgc hroom (by omega)
      · simp only
        rw [endFrom_set _ _ i c _ hgc]
        exact hnext
      · rcases hcur with ⟨hnone, _⟩ | ⟨hsome, _⟩
        · rw [hci] at hnone; exact absurd hnone (by simp)
        · refine Or.inr ⟨?_, ?_⟩
          · simp only [List.length_set]
            exact hsome
          · simp only
            intro hemp
            exact hne (List.eq_nil_of_length_eq_zero (by
              have := congrArg List.length hemp
              simpa using this))
    · intro j d hd
      by_cases hij : i = j
      · subst hij
        rw [hgc] at hd
        injection hd with hd
        subst hd
        exact ⟨_, getElem?_set_same _ _ _ _ hgc, rfl, rfl, Nat.le_add_right _ _⟩
      · exact ⟨d, by rw [getElem?_set_other _ _ _ _ hij]; exact hd, rfl, rfl,
          Nat.le_refl _⟩
    · have := sumLen_set st.chunks i c ({ c with len := c.len + needAlignedOf need }) hgc
      simp only [AcState.sumLen] at *
      omega
    · intro a
      constructor
      · rintro ⟨d, hd, hge, hlt⟩
        obtain ⟨j, hj⟩ := getElem?_of_mem _ _ hd
        by_cases hij : i = j
        · subst hij
          rw [getElem?_set_same _ _ _ _ hgc] at hj
          injection hj with hj
          subst hj
          simp only at hge hlt
          by_cases hsplit : a < c.base + c.len
          · exact Or.inl ⟨c, mem_of_getElem? _ _ _ hgc, hge, hsplit⟩
          · exact Or.inr ⟨by omega, by omega⟩
        · rw [getElem?_set_other _ _ _ _ hij] at hj
          exact Or.inl ⟨d, mem_of_getElem? _ _ _ hj, hge, hlt⟩
      · rintro (⟨d, hd, hge, hlt⟩ | ⟨hge, hlt⟩)
        · obtain ⟨j, hj⟩ := getElem?_of_mem _ _ hd
          by_cases hij : i = j
          · subst hij
            rw [hgc] at hj
            injection hj with hj
            subst hj
            refine ⟨_, mem_of_getElem? _ _ _ (getElem?_set_same _ _ _ _ hgc), ?_, ?_⟩
            · exact hge
            · simp only
              omega
          · exact ⟨d, mem_of_getElem? _ _ _
              (by rw [getElem?_set_other _ _ _ _ hij]; exact hj), hge, hlt⟩
        · refine ⟨_, mem_of_getElem? _ _ _ (getElem?_set_same _ _ _ _ hgc), ?_, ?_⟩
          · simp only
            omega
          · simp only
            omega
    · intro a hge hlt ⟨d, hd, hdge, hdlt⟩
      obtain ⟨j, hj⟩ := getElem?_of_mem _ _ hd
      by_cases hij : i = j
      · subst hij
        rw [hgc] at hj
        injection hj with hj
        subst hj
        omega
      · have hdget := packedFrom_get _ _ hpack j d hj
        rcases Nat.lt_or_ge j i with hlt2 | hge2
        · have hord := packedFrom_ordered _ _ hpack j i d c hlt2 hj hgc
          have := le_align8 d.cap
          omega
        · have hord := packedFrom_ordered _ _ hpack i j c d (by omega) hgc hj
          have := le_align8 c.cap
          omega
  · -- a single new chunk is acquired and the request served from its start
    subst hst
    subst haddr
    have hnb8 : st.nextBase % 8 = 0 := by
      rw [hnext]
      exact endFrom_mod8 _ _ hb0
    have hna8 := needAlignedOf_mod8 need
    refine ⟨?_, hnb8, ?_, ?_, ?_, ?_⟩
    · refine ⟨b0, hb0, ?_, ?_, ?_⟩
      · exact packedFrom_append _ _ _ hpack (by rw [hnext]) hfits hna8
      · simp only
        rw [endFrom_append, hnext]
      · refine Or.inr ⟨?_, by simp⟩
        simp
    · intro j d hj
      exact ⟨d, getElem?_append_left _ _ j d hj, rfl, rfl, Nat.le_refl _⟩
    · simp [AcState.sumLen]
    · intro a
      constructor
      · rintro ⟨d, hd, hge, hlt⟩
        rcases List.mem_append.mp hd with hd | hd
        · exact Or.inl ⟨d, hd, hge, hlt⟩
        · simp only [List.mem_singleton] at hd
          subst hd
          exact Or.inr ⟨hge, hlt⟩
      · rintro (⟨d, hd, hge, hlt⟩ | ⟨hge, hlt⟩)
        · exact ⟨d, List.mem_append.mpr (Or.inl hd), hge, hlt⟩
        · refine ⟨_, List.mem_append.mpr (Or.inr (List.mem_singleton.mpr rfl)), ?_, ?_⟩
          · exact hge
          · simp only
            omega
    · intro a hge hlt ⟨d, hd, hdge, hdlt⟩
      obtain ⟨j, hj⟩ := getElem?_of_mem _ _ hd
      have hdget := packedFrom_get _ _ hpack j d hj
      have := le_align8 d.cap
      rw [hnext] at hge
      omega

/-- `ASet` only grows along `Persists`. -/
theorem ASet_mono {s s' : AcState} (hp : Persists s s') {a : Nat}
    (h : ASet s a) : ASet s' a := by
  obtain ⟨d, hd, hge, hlt⟩ := h
  obtain ⟨j, hj⟩ := getElem?_of_mem _ _ hd
  obtain ⟨d', hd', hb, hc, hl⟩ := hp j d hj
  exact ⟨d', mem_of_getElem? _ _ _ hd', by omega, by omega⟩

/-- C2, counterexample: for `need = 8` (already a word multiple) `alloc`
consumes 16 bytes, not the smallest word multiple ≥ 8, which is 8: the
rounding adds `ptrSize + 1` instead of `ptrSize - 1` before masking. -/
theorem C2_exact_rounding_cex :
    alloc 8192 8 AcState.fresh =
      some ({ chunks := [{ base := 0, len := 16, cap := 8192 }],
              curChunk := some 0, nextBase := 8192 }, 0) ∧
    needAlignedOf 8 = 16 ∧ leastWordMultipleGE 8 = 8 ∧ (16 : Nat) ≠ 8 := by
  refine ⟨?_, by decide, by decide, by decide⟩
  rfl

/-- C2 (amended): on any state satisfying the layout invariant, a returning
`alloc` consumes from the chunk that serves the request exactly
`needAlignedOf need` bytes — the smallest multiple of the machine word size
that is at least `need + 2` (not the smallest multiple ≥ `need`) — and the
returned address is word-aligned. -/
theorem C2_aligned_consumption_amended {chunkSize need : Nat}
    {st st' : AcState} {addr : Nat} (hinv : AcInv st)
    (h : alloc chunkSize need st = some (st', addr)) :
    st'.sumLen = st.sumLen + needAlignedOf need ∧
    needAlignedOf need % 8 = 0 ∧ need + 2 ≤ needAlignedOf need ∧
    (∀ m, m % 8 = 0 → need + 2 ≤ m → needAlignedOf need ≤ m) ∧
    addr % 8 = 0 := by
  obtain ⟨_, ha8, _, hsum, _, _⟩ := alloc_step hinv h
  refine ⟨hsum, needAlignedOf_mod8 need, needAlignedOf_ge need, ?_, ha8⟩
  intro m h1 h2
  unfold needAlignedOf ptrSize
  omega

/-- Closed witness for `C2_aligned_consumption_amended` on a fresh arena
with `need = 8`. -/
theorem C2_aligned_consumption_amended_witness :
    ({ chunks := [{ base := 0, len := 16, cap := 8192 }], curChunk := some 0,
        nextBase := 8192 } : AcState).sumLen =
      AcState.fresh.sumLen + needAlignedOf 8 ∧
    needAlignedOf 8 % 8 = 0 ∧ 8 + 2 ≤ needAlignedOf 8 ∧
    (∀ m, m % 8 = 0 → 8 + 2 ≤ m → needAlignedOf 8 ≤ m) ∧
    0 % 8 = 0 :=
  @C2_aligned_consumption_amended 8192 8 AcState.fresh
    { chunks := [{ base := 0, len := 16, cap := 8192 }], curChunk := some 0,
      nextBase := 8192 } 0 AcInv_fresh (by rfl)

/-- A run of `alloc` calls: the final state and the list of
(address, aligned size) ranges handed out, in order; a diverging call (the
oversized infinite loop of C1) ends the run. -/
def runAllocs (chunkSize : Nat) : AcState → List Nat → AcState × List (Nat × Nat)
  | st, [] => (st, [])
  | st, n :: rest =>
    match alloc chunkSize n st with
    | none => (st, [])
    | some (st1, addr) =>
      ((runAllocs chunkSize st1 rest).1,
        (addr, needAlignedOf n) :: (runAllocs chunkSize st1 rest).2)

/-- Two (address, size) ranges do not overlap. -/
def RangesDisjoint (r1 r2 : Nat × Nat) : Prop :=
  r1.1 + r1.2 ≤ r2.1 ∨ r2.1 + r2.2 ≤ r1.1

/-- Main induction for C3: along a run from any state satisfying the layout
invariant, the handed-out ranges are pairwise disjoint, word-aligned,
nonempty, fresh (disjoint from everything already in use), and in use at
the end of the run. -/
theorem runAllocs_props (chunkSize : Nat) :
    ∀ (ns : List Nat) (st : AcState), AcInv st →
    AcInv (runAllocs chunkSize st ns).1 ∧
    Persists st (runAllocs chunkSize st ns).1 ∧
    List.Pairwise RangesDisjoint (runAllocs chunkSize st ns).2 ∧
    (∀ r ∈ (runAllocs chunkSize st ns).2, r.1 % 8 = 0 ∧ 0 < r.2 ∧
      (∀ a, r.1 ≤ a → a < r.1 + r.2 → ¬ ASet st a) ∧
      (∀ a, r.1 ≤ a → a < r.1 + r.2 → ASet (runAllocs chunkSize st ns).1 a)) := by
  intro ns
  induction ns with
  | nil =>
    intro st hinv
    exact ⟨hinv, Persists.refl st, List.Pairwise.nil, by simp [runAllocs]⟩
  | cons n rest ih =>
    intro st hinv
    cases ha : alloc chunkSize n st with
    | none =>
      simp only [runAllocs, ha]
      exact ⟨hinv, Persists.refl st, List.Pairwise.nil, by simp⟩
    | some r =>
      obtain ⟨st1, addr⟩ := r
      obtain ⟨hinv1, haddr8, hpers1, hsum1, hset1, hfresh1⟩ := alloc_step hinv ha
      obtain ⟨hinvf, hpersf, hpw, hranges⟩ := ih st1 hinv1
      have hna : 0 < needAlignedOf n := by
        have := needAlignedOf_ge n
        omega
      simp only [runAllocs, ha]
      refine ⟨hinvf, Persists.trans hpers1 hpersf, ?_, ?_⟩
      · refine List.Pairwise.cons ?_ hpw
        intro r hr
        obtain ⟨hr8, hrpos, hrfresh, hrin⟩ := hranges r hr
        by_contra hnd
        unfold RangesDisjoint at hnd
        push_neg at hnd
        simp only at hnd
        have hmem1 : addr ≤ max addr r.1 ∧ max addr r.1 < addr + needAlignedOf n := by
          omega
        have hmem2 : r.1 ≤ max addr r.1 ∧ max addr r.1 < r.1 + r.2 := by
          omega
        have hin1 : ASet st1 (max addr r.1) :=
          (hset1 _).mpr (Or.inr ⟨hmem1.1, hmem1.2⟩)
        exact hrfresh _ hmem2.1 hmem2.2 hin1
      · intro r hr
        rcases List.mem_cons.mp hr with rfl | hr
        · refine ⟨haddr8, hna, ?_, ?_⟩
          · intro a h1 h2
            exact hfresh1 a h1 h2
          · intro a h1 h2
            exact ASet_mono hpersf ((hset1 a).mpr (Or.inr ⟨h1, h2⟩))
        · obtain ⟨hr8, hrpos, hrfresh, hrin⟩ := hranges r hr
          refine ⟨hr8, hrpos, ?_, hrin⟩
          intro a h1 h2 hAs
          exact hrfresh a h1 h2 (ASet_mono hpers1 hAs)

/-- The state after a prefix of a run persists into the state after the
whole run. -/
theorem runAllocs_take_persists (chunkSize : Nat) :
    ∀ (ns : List Nat) (k : Nat) (st : AcState), AcInv st →
    Persists (runAllocs chunkSize st (ns.take k)).1 (runAllocs chunkSize st ns).1 := by
  intro ns
  induction ns with
  | nil =>
    intro k st _
    simp only [List.take_nil]
    exact Persists.refl _
  | cons n rest ih =>
    intro k st hinv
    cases k with
    | zero =>
      simp only [List.take_zero]
      exact (runAllocs_props chunkSize (n :: rest) st hinv).2.1
    | succ k1 =>
      simp only [List.take_succ_cons]
      cases ha : alloc chunkSize n st with
      | none =>
        simp only [runAllocs, ha]
        exact Persists.refl st
      | some r =>
        obtain ⟨st1, addr⟩ := r
        simp only [runAllocs, ha]
        exact ih k1 st1 (alloc_step hinv ha).1

/-- C3: over every sequence of requests on a single-owner arena (share
count 1, which selects exactly this code path), the returned
(address, aligned size) ranges are pairwise non-overlapping, every returned
address is word-aligned, at every point of the run every chunk's used
length stays within its capacity, and within any one chunk the used offset
grows monotonically along the run while the chunk keeps its identity. -/
theorem C3_single_owner_alloc_invariants (chunkSize : Nat) (ns : List Nat) :
    List.Pairwise RangesDisjoint (runAllocs chunkSize AcState.fresh ns).2 ∧
    (∀ r ∈ (runAllocs chunkSize AcState.fresh ns).2, r.1 % 8 = 0) ∧
    (∀ k, ∀ c ∈ (runAllocs chunkSize AcState.fresh (ns.take k)).1.chunks,
      c.len ≤ c.cap) ∧
    (∀ k1 k2, k1 ≤ k2 → ∀ (i : Nat) (c1 c2 : Chunk),
      (runAllocs chunkSize AcState.fresh (ns.take k1)).1.chunks[i]? = some c1 →
      (runAllocs chunkSize AcState.fresh (ns.take k2)).1.chunks[i]? = some c2 →
      c1.base = c2.base ∧ c1.cap = c2.cap ∧ c1.len ≤ c2.len) := by
  obtain ⟨hinvf, hpersf, hpw, hranges⟩ :=
    runAllocs_props chunkSize ns AcState.fresh AcInv_fresh
  refine ⟨hpw, fun r hr => (hranges r hr).1, ?_, ?_⟩
  · intro k c hc
    obtain ⟨hinvk, _, _, _⟩ :=
      runAllocs_props chunkSize (ns.take k) AcState.fresh AcInv_fresh
    obtain ⟨b0, hb0, hpack, _, _⟩ := hinvk
    obtain ⟨j, hj⟩ := getElem?_of_mem _ _ hc
    exact (packedFrom_get _ _ hpack j c hj).1
  · intro k1 k2 hk i c1 c2 hc1 hc2
    have htt : (ns.take k2).take k1 = ns.take k1 := by
      rw [List.take_take]
      rw [Nat.min_eq_left hk]
    have hpers := runAllocs_take_persists chunkSize (ns.take k2) k1
      AcState.fresh AcInv_fresh
    rw [htt] at hpers
    obtain ⟨c', hc', hb, hcp, hl⟩ := hpers i c1 hc1
    rw [hc2] at hc'
    injection hc' with hc'
    subst hc'
    exact ⟨hb.symm, hcp.symm, hl⟩

/-! ### Growable-array `Append` (api.go)

    func Append[T any](ac *Allocator, s []T, elems ...T) []T {
      if len(elems) == 0 { return s }
      if h.Len >= h.Cap {
        // grow: new capacity per SliceExtendRatio, new backing from alloc,
        // old contents moved over
      }
      // append: move the new elements after the existing ones
      h.Len += ...
    }

A slice is modelled by its observable contents (the `Len` elements, in
order) plus the header capacity; the byte moves (`memmoveNoHeapPointers`)
become list operations in a flat-memory view. The grow path calls
`ac.alloc(int(h.Cap) * elemSz, false)`, so `Append` threads the allocator
state of the C1-C3 model and returns `none` exactly when that call hits the
oversized infinite loop. -/

/-- Capacity growth of `Append` when `h.Len >= h.Cap`, at the default
`SliceExtendRatio = 2.5`: `int64(float64(cap)*2.5)` is exactly `cap*5/2`
and `int64(float64(cap)*1.5)` exactly `cap*3/2` for every capacity below
2^51 (the float products are exact there), and `SliceExtendRatio > 1.5`
holds, so the nominal-chunk preference branch is active. -/
def growCap (chunkSize cap k : Nat) : Nat :=
  let c1 := max (cap * 5 / 2) (cap + k)
  let c2 := if chunkSize < c1 ∧ cap + k < cap * 3 / 2 then cap * 3 / 2 else c1
  if c2 < 16 then 16 else c2

/-- A Go slice of element type `T`: its contents and header capacity. -/
structure GSlice (T : Type) where
  data : List T
  cap : Nat
deriving DecidableEq

/-- `Append(ac, s, elems...)` on an enabled arena. When `h.Len >= h.Cap` it
grows: the new capacity comes from `growCap` and the new backing buffer
from `ac.alloc(int(h.Cap) * elemSz, false)` — `none` is that call's
oversized infinite loop — then the old contents are moved over. The no-grow
path writes the elements directly after the current length without calling
`alloc` and without re-checking the capacity; in the flat-memory view the
result contents are `s.data ++ elems` either way. -/
def Append {T : Type} (chunkSize elemSize : Nat) (st : AcState) (s : GSlice T)
    (elems : List T) : Option (AcState × GSlice T) :=
  if elems.isEmpty then some (st, s)
  else if s.cap ≤ s.data.length then
    match alloc chunkSize (growCap chunkSize s.cap elems.length * elemSize) st with
    | none => none
    | some (st1, _addr) =>
        some (st1, { data := s.data ++ elems,
                     cap := growCap chunkSize s.cap elems.length })
  else some (st, { data := s.data ++ elems, cap := s.cap })

/-- Appending the elements one at a time: a separate `Append` call per
element, threading the allocator state; `none` as soon as one call
diverges. -/
def AppendEach {T : Type} (chunkSize elemSize : Nat) :
    AcState → GSlice T → List T → Option (AcState × GSlice T)
  | st, s, [] => some (st, s)
  | st, s, e :: rest =>
    match Append chunkSize elemSize st s [e] with
    | none => none
    | some (st1, s1) => AppendEach chunkSize elemSize st1 s1 rest

theorem Append_data {T : Type} {chunkSize elemSize : Nat} {st st1 : AcState}
    {s d : GSlice T} {elems : List T}
    (h : Append chunkSize elemSize st s elems = some (st1, d)) :
    d.data = s.data ++ elems := by
  unfold Append at h
  split at h
  · rename_i he
    rw [List.isEmpty_iff] at he
    injection h with h
    injection h with _ h
    subst h
    simp [he]
  · split at h
    · split at h
      · exact absurd h (by simp)
      · injection h with h
        injection h with _ h
        subst h
        rfl
    · injection h with h
      injection h with _ h
      subst h
      rfl

theorem AppendEach_data {T : Type} {chunkSize elemSize : Nat} :
    ∀ (elems : List T) (st : AcState) (s : GSlice T) (st1 : AcState)
    (d : GSlice T),
    AppendEach chunkSize elemSize st s elems = some (st1, d) →
    d.data = s.data ++ elems := by
  intro elems
  induction elems with
  | nil =>
    intro st s st1 d h
    unfold AppendEach at h
    injection h with h
    injection h with _ h
    subst h
    simp
  | cons e rest ih =>
    intro st s st1 d h
    unfold AppendEach at h
    split at h
    · exact absurd h (by simp)
    · rename_i st2 s2 hstep
      have h1 := Append_data hstep
      have h2 := ih st2 s2 st1 d h
      rw [h2, h1]
      simp

/-- C8, counterexample: the claimed one-at-a-time/bulk equivalence fails on
the source because the grow path calls the diverging `alloc`. With nominal
chunk size 36 (`NewAllocatorPool` takes the chunk size as a parameter),
1-byte elements and a full slice of 16 elements, appending 8 elements one
at a time grows once to capacity 24 (the nominal-chunk preference branch:
`int64(16*2.5) = 40 > 36`, `small = 24 > 16+1`) and returns the 24
elements; one bulk `Append` of the same 8 elements computes capacity
`max(40, 16+8) = 40` (the preference branch is skipped since
`small = 24 > 16+8` fails), and `alloc(40)` has aligned size 48 > 36, the
oversized infinite loop: the loop runs out of any fuel, so the bulk side
never returns while the one-at-a-time side does. -/
theorem C8_bulk_append_diverges_cex :
    AppendEach 36 1 AcState.fresh
        ({ data := List.replicate 16 (), cap := 16 } : GSlice Unit)
        (List.replicate 8 ()) =
      some ({ chunks := [{ base := 0, len := 32, cap := 36 }],
              curChunk := some 0, nextBase := 40 },
            { data := List.replicate 24 (), cap := 24 }) ∧
    Append 36 1 AcState.fresh
        ({ data := List.replicate 16 (), cap := 16 } : GSlice Unit)
        (List.replicate 8 ()) = none ∧
    growCap 36 16 8 * 1 = 40 ∧
    (∀ fuel : Nat, allocLoop 36 40 fuel AcState.fresh = none) := by
  refine ⟨by decide, by decide, by decide, ?_⟩
  intro fuel
  exact allocLoop_oversized_none 36 40 (by decide) fuel AcState.fresh (by decide)

/-- C8 (amended): whenever both runs return at all — the one-at-a-time
`Append` of the k elements and the single bulk `Append` of the same k
elements, from the same slice and allocator state — the final contents
(length and element values) agree, both being the initial contents followed
by the k elements in order, for every element type: the generic code path
is shared by value and pointer element kinds. (The capacity growth
schedules differ, and one side can hit the diverging oversized `alloc`
while the other returns, so the unconditional equivalence fails.) -/
theorem C8_append_single_eq_bulk_amended {T : Type} (chunkSize elemSize : Nat)
    (st : AcState) (s : GSlice T) (elems : List T) (st1 st2 : AcState)
    (d1 d2 : GSlice T)
    (h1 : AppendEach chunkSize elemSize st s elems = some (st1, d1))
    (h2 : Append chunkSize elemSize st s elems = some (st2, d2)) :
    d1.data = s.data ++ elems ∧ d2.data = s.data ++ elems ∧
      d1.data = d2.data := by
  have e1 := AppendEach_data elems st s st1 d1 h1
  have e2 := Append_data h2
  exact ⟨e1, e2, by rw [e1, e2]⟩

/-- Closed witness for `C8_append_single_eq_bulk_amended`: two unit
elements appended to an empty slice on a fresh arena with nominal chunk
size 8192, where both runs return. -/
theorem C8_append_single_eq_bulk_amended_witness :
    ({ data := [(), ()], cap := 16 } : GSlice Unit).data = [] ++ [(), ()] ∧
    ({ data := [(), ()], cap := 16 } : GSlice Unit).data = [] ++ [(), ()] ∧
    ({ data := [(), ()], cap := 16 } : GSlice Unit).data =
      ({ data := [(), ()], cap := 16 } : GSlice Unit).data :=
  C8_append_single_eq_bulk_amended 8192 1 AcState.fresh
    { data := [], cap := 0 } [(), ()]
    { chunks := [{ base := 0, len := 24, cap := 8192 }], curChunk := some 0,
      nextBase := 8192 }
    { chunks := [{ base := 0, len := 24, cap := 8192 }], curChunk := some 0,
      nextBase := 8192 }
    { data := [(), ()], cap := 16 } { data := [(), ()], cap := 16 }
    (by decide) (by decide)

/-! ### NewSlice: the generic function (api.go) and the legacy method
(older-generation core.go) -/

/-- The `Len`/`Cap` header fields a slice construction fills in. -/
structure SliceHeaderVals where
  len : Nat
  cap : Nat
deriving DecidableEq

/-- Outcome of a slice construction on an enabled arena. -/
inductive SliceOutcome where
  | panics (msg : String)
  | diverges
  | ok (st : AcState) (h : SliceHeaderVals)
deriving DecidableEq

/-- `NewSlice[T](ac, len, cap)` (api.go): panic when `len > cap`
("keep same with systems `new`"), otherwise allocate `cap*sizeof(T)` bytes
with `alloc` (the C1-C3 model; `diverges` is its oversized infinite loop)
and fill in exactly the requested header values. -/
def NewSliceG (chunkSize : Nat) (st : AcState) (len cap elemSize : Nat) :
    SliceOutcome :=
  if cap < len then SliceOutcome.panics "NewSlice: cap out of range"
  else
    match alloc chunkSize (cap * elemSize) st with
    | none => SliceOutcome.diverges
    | some (st1, _addr) => SliceOutcome.ok st1 { len := len, cap := cap }

/-- Legacy method `Allocator.NewSlice(slicePtr, len, cap)` (older-generation
core.go:258): no length check — `if cap < len { cap = len }` clamps the
capacity up to the length — then the header is filled from the clamped
values. The old-generation `alloc` (which sizes oversized buffers with
`aligned` bytes and always returns) is abstracted to the address it
returns; only the header values are modelled. -/
def NewSliceLegacy (len cap : Nat) : SliceHeaderVals :=
  if cap < len then { len := len, cap := len }
  else { len := len, cap := cap }

/-- C6, counterexample: the claim says every slice creation with
`len > cap` panics immediately; but the legacy method `Allocator.NewSlice`
with `len = 1, cap = 0` clamps and returns a len-1 cap-1 slice without
panicking. -/
theorem C6_legacy_clamp_cex :
    NewSliceLegacy 1 0 = { len := 1, cap := 1 } := rfl

/-- C6 (amended): the generic `NewSlice` panics immediately whenever the
requested length strictly exceeds the requested capacity, and when
`len ≤ cap` it returns a slice with exactly the requested length and
capacity provided the backing allocation returns (see C1); the legacy
method `Allocator.NewSlice` instead clamps the capacity up to the length
and never checks. -/
theorem C6_newslice_len_cap_amended (chunkSize len cap elemSize : Nat)
    (st : AcState) :
    (cap < len → NewSliceG chunkSize st len cap elemSize =
      SliceOutcome.panics "NewSlice: cap out of range") ∧
    (len ≤ cap → ∀ (st1 : AcState) (addr : Nat),
      alloc chunkSize (cap * elemSize) st = some (st1, addr) →
      NewSliceG chunkSize st len cap elemSize =
        SliceOutcome.ok st1 { len := len, cap := cap }) ∧
    NewSliceLegacy len cap = { len := len, cap := max cap len } := by
  refine ⟨?_, ?_, ?_⟩
  · intro h
    unfold NewSliceG
    rw [if_pos h]
  · intro h st1 addr ha
    unfold NewSliceG
    rw [if_neg (by omega), ha]
  · unfold NewSliceLegacy
    split
    · rename_i h
      have : max cap len = len := by omega
      rw [this]
    · rename_i h
      have : max cap len = cap := by omega
      rw [this]

/-- Closed witness for `C6_newslice_len_cap_amended`: `len=1, cap=0` panics
on the generic function and clamps on the legacy method; `len=1, cap=2`
returns exactly the requested header. -/
theorem C6_newslice_len_cap_amended_witness :
    NewSliceG 8192 AcState.fresh 1 0 4 =
      SliceOutcome.panics "NewSlice: cap out of range" ∧
    NewSliceG 8192 AcState.fresh 1 2 4 =
      SliceOutcome.ok
        { chunks := [{ base := 0, len := 16, cap := 8192 }], curChunk := some 0, nextBase := 8192 }
        { len := 1, cap := 2 } ∧
    NewSliceLegacy 1 0 = { len := 1, cap := max 0 1 } := by
  refine ⟨(C6_newslice_len_cap_amended 8192 1 0 4 AcState.fresh).1 (by omega),
    (C6_newslice_len_cap_amended 8192 1 2 4 AcState.fresh).2.1 (by omega)
      _ 0 (by rfl),
    (C6_newslice_len_cap_amended 8192 1 0 4 AcState.fresh).2.2⟩

/-! ### Debug-mode safety checker (debug.go)

The checker classifies every pointer-like field reachable from the
registered roots. Go's reflected values become the `GoVal` tree below;
addresses, map handles and function environment pointers are `Nat`. -/

/-- `pointerType` of `checkPointerType`. -/
inductive PointerType where
  | invalid
  | lacInternal
  | external
  | externalMarked
deriving DecidableEq

/-- A reflected Go value as `checkRecursively` sees it. A pointer embeds
its target when the pointee is a struct (the only case the checker
recurses into); `isAllocator` marks a pointer whose element type is the
`Allocator` type itself (the checker stops there); `target = none` covers
non-struct pointees. Slices carry their backing address and their `Len`
elements; strings their backing address and length; maps their handle and
their values; functions their captured-environment pointer (0 = nil);
`unsupported` stands for every other field kind (channels etc.), which the
checker only logs. -/
inductive GoVal where
  | num
  | ptr (addr : Nat) (isAllocator : Bool) (target : Option GoVal)
  | slice (dataAddr : Nat) (elems : List GoVal)
  | fixedArr (elems : List GoVal)
  | mapVal (handle : Nat) (vals : List GoVal)
  | str (dataAddr : Nat) (len : Nat)
  | funcVal (env : Nat)
  | strukt (name : String) (fields : List (String × GoVal))
  | unsupported (desc : String)

/-! Decidable equality for `GoVal` (the derive handler does not support
nested inductives; the Go source compares interface identities in its
`checked` map, which structural equality models). -/

mutual
def goValDecEq : (a b : GoVal) → Decidable (a = b)
  | GoVal.num, GoVal.num => isTrue rfl
  | GoVal.num, GoVal.ptr y0 y1 y2 => isFalse (fun he => by cases he)
  | GoVal.num, GoVal.slice y0 y1 => isFalse (fun he => by cases he)
  | GoVal.num, GoVal.fixedArr y0 => isFalse (fun he => by cases he)
  | GoVal.num, GoVal.mapVal y0 y1 => isFalse (fun he => by cases he)
  | GoVal.num, GoVal.str y0 y1 => isFalse (fun he => by cases he)
  | GoVal.num, GoVal.funcVal y0 => isFalse (fun he => by cases he)
  | GoVal.num, GoVal.strukt y0 y1 => isFalse (fun he => by cases he)
  | GoVal.num, GoVal.unsupported y0 => isFalse (fun he => by cases he)
  | GoVal.ptr x0 x1 x2, GoVal.num => isFalse (fun he => by cases he)
  | GoVal.ptr x0 x1 x2, GoVal.ptr y0 y1 y2 =>
    match Nat.decEq x0 y0 with
    | isFalse h => isFalse (fun he => by cases he; exact h rfl)
    | isTrue h0 =>
      match Bool.decEq x1 y1 with
      | isFalse h => isFalse (fun he => by cases he; exact h rfl)
      | isTrue h1 =>
        match optGoValDecEq x2 y2 with
        | isFalse h => isFalse (fun he => by cases he; exact h rfl)
        | isTrue h2 =>
          isTrue (by rw [h0, h1, h2])
  | GoVal.ptr x0 x1 x2, GoVal.slice y0 y1 => isFalse (fun he => by cases he)
  | GoVal.ptr x0 x1 x2, GoVal.fixedArr y0 => isFalse (fun he => by cases he)
  | GoVal.ptr x0 x1 x2, GoVal.mapVal y0 y1 => isFalse (fun he => by cases he)
  | GoVal.ptr x0 x1 x2, GoVal.str y0 y1 => isFalse (fun he => by cases he)
  | GoVal.ptr x0 x1 x2, GoVal.funcVal y0 => isFalse (fun he => by cases he)
  | GoVal.ptr x0 x1 x2, GoVal.strukt y0 y1 => isFalse (fun he => by cases he)
  | GoVal.ptr x0 x1 x2, GoVal.unsupported y0 => isFalse (fun he => by cases he)
  | GoVal.slice x0 x1, GoVal.num => isFalse (fun he => by cases he)
  | GoVal.slice x0 x1, GoVal.ptr y0 y1 y2 => isFalse (fun he => by cases he)
  | GoVal.slice x0 x1, GoVal.slice y0 y1 =>
    match Nat.decEq x0 y0 with
    | isFalse h => isFalse (fun he => by cases he; exact h rfl)
    | isTrue h0 =>
      match listGoValDecEq x1 y1 with
      | isFalse h => isFalse (fun he => by cases he; exact h rfl)
      | isTrue h1 =>
        isTrue (by rw [h0, h1])
  | GoVal.slice x0 x1, GoVal.fixedArr y0 => isFalse (fun he => by cases he)
  | GoVal.slice x0 x1, GoVal.mapVal y0 y1 => isFalse (fun he => by cases he)
  | GoVal.slice x0 x1, GoVal.str y0 y1 => isFalse (fun he => by cases he)
  | GoVal.slice x0 x1, GoVal.funcVal y0 => isFalse (fun he => by cases he)
  | GoVal.slice x0 x1, GoVal.strukt y0 y1 => isFalse (fun he => by cases he)
  | GoVal.slice x0 x1, GoVal.unsupported y0 => isFalse (fun he => by cases he)
  | GoVal.fixedArr x0, GoVal.num => isFalse (fun he => by cases he)
  | GoVal.fixedArr x0, GoVal.ptr y0 y1 y2 => isFalse (fun he => by cases he)
  | GoVal.fixedArr x0, GoVal.slice y0 y1 => isFalse (fun he => by cases he)
  | GoVal.fixedArr x0, GoVal.fixedArr y0 =>
    match listGoValDecEq x0 y0 with
    | isFalse h => isFalse (fun he => by cases he; exact h rfl)
    | isTrue h0 =>
      isTrue (by rw [h0])
  | GoVal.fixedArr x0, GoVal.mapVal y0 y1 => isFalse (fun he => by cases he)
  | GoVal.fixedArr x0, GoVal.str y0 y1 => isFalse (fun he => by cases he)
  | GoVal.fixedArr x0, GoVal.funcVal y0 => isFalse (fun he => by cases he)
  | GoVal.fixedArr x0, GoVal.strukt y0 y1 => isFalse (fun he => by cases he)
  | GoVal.fixedArr x0, GoVal.unsupported y0 => isFalse (fun he => by cases he)
  | GoVal.mapVal x0 x1, GoVal.num => isFalse (fun he => by cases he)
  | GoVal.mapVal x0 x1, GoVal.ptr y0 y1 y2 => isFalse (fun he => by cases he)
  | GoVal.mapVal x0 x1, GoVal.slice y0 y1 => isFalse (fun he => by cases he)
  | GoVal.mapVal x0 x1, GoVal.fixedArr y0 => isFalse (fun he => by cases he)
  | GoVal.mapVal x0 x1, GoVal.mapVal y0 y1 =>
    match Nat.decEq x0 y0 with
    | isFalse h => isFalse (fun he => by cases he; exact h rfl)
    | isTrue h0 =>
      match listGoValDecEq x1 y1 with
      | isFalse h => isFalse (fun he => by cases he; exact h rfl)
      | isTrue h1 =>
        isTrue (by rw [h0, h1])
  | GoVal.mapVal x0 x1, GoVal.str y0 y1 => isFalse (fun he => by cases he)
  | GoVal.mapVal x0 x1, GoVal.funcVal y0 => isFalse (fun he => by cases he)
  | GoVal.mapVal x0 x1, GoVal.strukt y0 y1 => isFalse (fun he => by cases he)
  | GoVal.mapVal x0 x1, GoVal.unsupported y0 => isFalse (fun he => by cases he)
  | GoVal.str x0 x1, GoVal.num => isFalse (fun he => by cases he)
  | GoVal.str x0 x1, GoVal.ptr y0 y1 y2 => isFalse (fun he => by cases he)
  | GoVal.str x0 x1, GoVal.slice y0 y1 => isFalse (fun he => by cases he)
  | GoVal.str x0 x1, GoVal.fixedArr y0 => isFalse (fun he => by cases he)
  | GoVal.str x0 x1, GoVal.mapVal y0 y1 => isFalse (fun he => by cases he)
  | GoVal.str x0 x1, GoVal.str y0 y1 =>
    match Nat.decEq x0 y0 with
    | isFalse h => isFalse (fun he => by cases he; exact h rfl)
    | isTrue h0 =>
      match Nat.decEq x1 y1 with
      | isFalse h => isFalse (fun he => by cases he; exact h rfl)
      | isTrue h1 =>
        isTrue (by rw [h0, h1])
  | GoVal.str x0 x1, GoVal.funcVal y0 => isFalse (fun he => by cases he)
  | GoVal.str x0 x1, GoVal.strukt y0 y1 => isFalse (fun he => by cases he)
  | GoVal.str x0 x1, GoVal.unsupported y0 => isFalse (fun he => by cases he)
  | GoVal.funcVal x0, GoVal.num => isFalse (fun he => by cases he)
  | GoVal.funcVal x0, GoVal.ptr y0 y1 y2 => isFalse (fun he => by cases he)
  | GoVal.funcVal x0, GoVal.slice y0 y1 => isFalse (fun he => by cases he)
  | GoVal.funcVal x0, GoVal.fixedArr y0 => isFalse (fun he => by cases he)
  | GoVal.funcVal x0, GoVal.mapVal y0 y1 => isFalse (fun he => by cases he)
  | GoVal.funcVal x0, GoVal.str y0 y1 => isFalse (fun he => by cases he)
  | GoVal.funcVal x0, GoVal.funcVal y0 =>
    match Nat.decEq x0 y0 with
    | isFalse h => isFalse (fun he => by cases he; exact h rfl)
    | isTrue h0 =>
      isTrue (by rw [h0])
  | GoVal.funcVal x0, GoVal.strukt y0 y1 => isFalse (fun he => by cases he)
  | GoVal.funcVal x0, GoVal.unsupported y0 => isFalse (fun he => by cases he)
  | GoVal.strukt x0 x1, GoVal.num => isFalse (fun he => by cases he)
  | GoVal.strukt x0 x1, GoVal.ptr y0 y1 y2 => isFalse (fun he => by cases he)
  | GoVal.strukt x0 x1, GoVal.slice y0 y1 => isFalse (fun he => by cases he)
  | GoVal.strukt x0 x1, GoVal.fixedArr y0 => isFalse (fun he => by cases he)
  | GoVal.strukt x0 x1, GoVal.mapVal y0 y1 => isFalse (fun he => by cases he)
  | GoVal.strukt x0 x1, GoVal.str y0 y1 => isFalse (fun he => by cases he)
  | GoVal.strukt x0 x1, GoVal.funcVal y0 => isFalse (fun he => by cases he)
  | GoVal.strukt x0 x1, GoVal.strukt y0 y1 =>
    match String.decEq x0 y0 with
    | isFalse h => isFalse (fun he => by cases he; exact h rfl)
    | isTrue h0 =>
      match fieldsGoValDecEq x1 y1 with
      | isFalse h => isFalse (fun he => by cases he; exact h rfl)
      | isTrue h1 =>
        isTrue (by rw [h0, h1])
  | GoVal.strukt x0 x1, GoVal.unsupported y0 => isFalse (fun he => by cases he)
  | GoVal.unsupported x0, GoVal.num => isFalse (fun he => by cases he)
  | GoVal.unsupported x0, GoVal.ptr y0 y1 y2 => isFalse (fun he => by cases he)
  | GoVal.unsupported x0, GoVal.slice y0 y1 => isFalse (fun he => by cases he)
  | GoVal.unsupported x0, GoVal.fixedArr y0 => isFalse (fun he => by cases he)
  | GoVal.unsupported x0, GoVal.mapVal y0 y1 => isFalse (fun he => by cases he)
  | GoVal.unsupported x0, GoVal.str y0 y1 => isFalse (fun he => by cases he)
  | GoVal.unsupported x0, GoVal.funcVal y0 => isFalse (fun he => by cases he)
  | GoVal.unsupported x0, GoVal.strukt y0 y1 => isFalse (fun he => by cases he)
  | GoVal.unsupported x0, GoVal.unsupported y0 =>
    match String.decEq x0 y0 with
    | isFalse h => isFalse (fun he => by cases he; exact h rfl)
    | isTrue h0 =>
      isTrue (by rw [h0])

def optGoValDecEq : (a b : Option GoVal) → Decidable (a = b)
  | none, none => isTrue rfl
  | none, some _ => isFalse (fun he => by cases he)
  | some _, none => isFalse (fun he => by cases he)
  | some v1, some v2 =>
    match goValDecEq v1 v2 with
    | isFalse h => isFalse (fun he => by cases he; exact h rfl)
    | isTrue h => isTrue (by rw [h])

def listGoValDecEq : (a b : List GoVal) → Decidable (a = b)
  | [], [] => isTrue rfl
  | [], _ :: _ => isFalse (fun he => by cases he)
  | _ :: _, [] => isFalse (fun he => by cases he)
  | v1 :: r1, v2 :: r2 =>
    match goValDecEq v1 v2 with
    | isFalse h => isFalse (fun he => by cases he; exact h rfl)
    | isTrue h0 =>
      match listGoValDecEq r1 r2 with
      | isFalse h => isFalse (fun he => by cases he; exact h rfl)
      | isTrue h1 => isTrue (by rw [h0, h1])

def fieldsGoValDecEq : (a b : List (String × GoVal)) → Decidable (a = b)
  | [], [] => isTrue rfl
  | [], _ :: _ => isFalse (fun he => by cases he)
  | _ :: _, [] => isFalse (fun he => by cases he)
  | (n1, v1) :: r1, (n2, v2) :: r2 =>
    match String.decEq n1 n2 with
    | isFalse h => isFalse (fun he => by cases he; exact h rfl)
    | isTrue h0 =>
      match goValDecEq v1 v2 with
      | isFalse h => isFalse (fun he => by cases he; exact h rfl)
      | isTrue h1 =>
        match fieldsGoValDecEq r1 r2 with
        | isFalse h => isFalse (fun he => by cases he; exact h rfl)
        | isTrue h2 => isTrue (by rw [h0, h1, h2])
end

instance : DecidableEq GoVal := goValDecEq

/-- `WeakUniqQueue` (newest-generation utils): an append-only queue with
weak deduplication — a new element is dropped when the queue is still
shorter than `strongUniqRange` and already contains it, or when it equals
the last element. Elements are addresses/handles; the equality functions
the allocator installs are pointer/interface equality, modelled by `=`. -/
structure WeakUniqQueue where
  slice : List Nat
  strongUniqRange : Nat
deriving DecidableEq

def WeakUniqQueue.Put (e : WeakUniqQueue) (a : Nat) : WeakUniqQueue :=
  if 0 < e.slice.length then
    if e.slice.length < e.strongUniqRange ∧ a ∈ e.slice then e
    else if e.slice.getLast? = some a then e
    else { e with slice := e.slice ++ [a] }
  else { e with slice := e.slice ++ [a] }

def WeakUniqQueue.Clear (e : WeakUniqQueue) : WeakUniqQueue :=
  { e with slice := [] }

/-- The newest-generation `Allocator`, as the lifecycle operations and the
safety checker see it. Chunks are the `Chunk` model of C1-C3 (the checker
classifies an address against the `[Data, Data+Cap)` span of each owned
chunk); `selfAddr` is the address of the allocator's own control block. -/
structure Allocator where
  disabled : Bool
  valid : Bool
  refCnt : Int
  chunks : List Chunk
  curChunk : Option Nat
  externalPtr : WeakUniqQueue
  externalSlice : WeakUniqQueue
  externalString : WeakUniqQueue
  externalMap : WeakUniqQueue
  externalFunc : WeakUniqQueue
  dbgScanObjs : List GoVal
  selfAddr : Nat

/-- `nonNilPanickyAddr = uintptr(1)`. -/
def nonNilPanickyAddr : Nat := 1

/-- `checkPointerType(addr)`: nil and the panicky sentinel count as
internal; so does the arena's own control block and any address inside a
chunk currently owned by the arena; a registered external pointer is
marked; everything else is external. -/
def Allocator.checkPointerType (ac : Allocator) (addr : Nat) : PointerType :=
  if addr = 0 ∨ addr = nonNilPanickyAddr then PointerType.lacInternal
  else if addr = ac.selfAddr then PointerType.lacInternal
  else if ac.chunks.any (fun h => decide (h.base ≤ addr ∧ addr < h.base + h.cap)) then
    PointerType.lacInternal
  else if addr ∈ ac.externalPtr.slice then PointerType.externalMarked
  else PointerType.external

mutual
/-- The `val.Kind() == reflect.Ptr` branch of `checkRecursively`: gated on
non-nil, non-sentinel; an external target is an error; the `Allocator` type
stops the scan; an internal struct target is recursed into. -/
def checkPtr (ac : Allocator) (addr : Nat) (isAlloc : Bool)
    (target : Option GoVal) : Except String Unit :=
  if addr ≠ nonNilPanickyAddr ∧ addr ≠ 0 then
    if ac.checkPointerType addr = PointerType.external then
      Except.error "unexpected external pointer"
    else if isAlloc then Except.ok ()
    else if ac.checkPointerType addr = PointerType.lacInternal then
      match target with
      | some s => checkVal ac s
      | none => Except.ok ()
    else Except.ok ()
  else Except.ok ()
termination_by sizeOf target

/-- `checkRecursively`: a pointer or a struct is inspected; a value of any
other kind at the top level passes (the function falls through to
`return nil`). -/
def checkVal (ac : Allocator) : GoVal → Except String Unit
  | GoVal.ptr addr isAlloc target => checkPtr ac addr isAlloc target
  | GoVal.strukt name fields => checkFields ac name fields
  | _ => Except.ok ()
termination_by v => sizeOf v

/-- The element loops: `checkRecursively` on every slice element, map value
or fixed-array element, stopping at the first error. -/
def checkList (ac : Allocator) : List GoVal → Except String Unit
  | [] => Except.ok ()
  | v :: rest =>
    match checkVal ac v with
    | Except.error e => Except.error e
    | Except.ok _ => checkList ac rest
termination_by l => sizeOf l

/-- The struct-field loop of `checkRecursively`. -/
def checkFields (ac : Allocator) (tpName : String) :
    List (String × GoVal) → Except String Unit
  | [] => Except.ok ()
  | (fname, f) :: rest =>
    match checkField ac tpName fname f with
    | Except.error e => Except.error e
    | Except.ok _ => checkFields ac tpName rest
termination_by fs => sizeOf fs

/-- One struct field, by kind (`switch f.Kind()`); every error is prefixed
with the `Type.field` path, as in the source. Numeric and boolean fields
need no check; struct-typed fields and any other kind fall to the default
case, which only logs. -/
def checkField (ac : Allocator) (tpName fname : String) :
    GoVal → Except String Unit
  | GoVal.num => Except.ok ()
  | GoVal.ptr addr isAlloc target =>
    match checkPtr ac addr isAlloc target with
    | Except.error e => Except.error (tpName ++ "." ++ fname ++ ": " ++ e)
    | Except.ok _ => Except.ok ()
  | GoVal.slice dataAddr elems =>
    if 0 < elems.length ∧ dataAddr ≠ 0 then
      if dataAddr ∉ ac.externalSlice.slice ∧
          ac.checkPointerType dataAddr = PointerType.external then
        Except.error (tpName ++ "." ++ fname ++ ": unexpected external slice")
      else if ac.checkPointerType dataAddr = PointerType.lacInternal then
        match checkList ac elems with
        | Except.error e => Except.error (tpName ++ "." ++ fname ++ ": " ++ e)
        | Except.ok _ => Except.ok ()
      else Except.ok ()
    else Except.ok ()
  | GoVal.fixedArr elems =>
    match checkList ac elems with
    | Except.error e => Except.error (tpName ++ "." ++ fname ++ ": " ++ e)
    | Except.ok _ => Except.ok ()
  | GoVal.mapVal handle vals =>
    if handle ∉ ac.externalMap.slice then
      Except.error (tpName ++ "." ++ fname ++ ": unexpected external map")
    else
      match checkList ac vals with
      | Except.error e => Except.error (tpName ++ "." ++ fname ++ ": " ++ e)
      | Except.ok _ => Except.ok ()
  | GoVal.str dataAddr len =>
    if 0 < len ∧ dataAddr ≠ 0 then
      if dataAddr ∉ ac.externalString.slice ∧
          ac.checkPointerType dataAddr = PointerType.external then
        Except.error (tpName ++ "." ++ fname ++ ": unexpected external string")
      else Except.ok ()
    else Except.ok ()
  | GoVal.funcVal env =>
    if env ≠ 0 then
      if env ∉ ac.externalFunc.slice then
        Except.error (tpName ++ "." ++ fname ++ ": unexpected external func")
      else Except.ok ()
    else Except.ok ()
  | GoVal.strukt _ _ => Except.ok ()
  | GoVal.unsupported _ => Except.ok ()
termination_by f => sizeOf f
end

mutual
/-- Declarative violation predicate for a value inspected at the top level
of `checkRecursively`: a non-nil pointer that classifies as external, a
violation behind an internal struct pointer (not of allocator type), or a
struct with a violating field. Kinds other than pointer and struct pass at
the top level. -/
inductive ViolV : Allocator → GoVal → Prop where
  | ptrExternal (ac : Allocator) (addr : Nat) (isAlloc : Bool)
      (target : Option GoVal) :
      addr ≠ nonNilPanickyAddr → addr ≠ 0 →
      ac.checkPointerType addr = PointerType.external →
      ViolV ac (GoVal.ptr addr isAlloc target)
  | ptrNested (ac : Allocator) (addr : Nat) (target : GoVal) :
      addr ≠ nonNilPanickyAddr → addr ≠ 0 →
      ac.checkPointerType addr = PointerType.lacInternal →
      ViolV ac target →
      ViolV ac (GoVal.ptr addr false (some target))
  | structField (ac : Allocator) (name : String)
      (fields : List (String × GoVal)) (fname : String) (f : GoVal) :
      (fname, f) ∈ fields → ViolF ac f →
      ViolV ac (GoVal.strukt name fields)

/-- Declarative violation predicate for a struct field, by kind: a
violating pointer; a nonempty slice with non-nil backing that is neither
registered in the slice registry nor classified internal or marked, or a
violating element of an internal slice; a violating fixed-array element; a
map whose handle is not in the map registry, or a violating value of a
registered map; a nonempty string with non-nil unregistered external
backing; a function with non-nil environment not in the function
registry. -/
inductive ViolF : Allocator → GoVal → Prop where
  | ptrField (ac : Allocator) (addr : Nat) (isAlloc : Bool)
      (target : Option GoVal) :
      ViolV ac (GoVal.ptr addr isAlloc target) →
      ViolF ac (GoVal.ptr addr isAlloc target)
  | sliceExternal (ac : Allocator) (dataAddr : Nat) (elems : List GoVal) :
      0 < elems.length → dataAddr ≠ 0 →
      dataAddr ∉ ac.externalSlice.slice →
      ac.checkPointerType dataAddr = PointerType.external →
      ViolF ac (GoVal.slice dataAddr elems)
  | sliceElem (ac : Allocator) (dataAddr : Nat) (elems : List GoVal)
      (e : GoVal) :
      0 < elems.length → dataAddr ≠ 0 →
      ac.checkPointerType dataAddr = PointerType.lacInternal →
      e ∈ elems → ViolV ac e →
      ViolF ac (GoVal.slice dataAddr elems)
  | arrElem (ac : Allocator) (elems : List GoVal) (e : GoVal) :
      e ∈ elems → ViolV ac e → ViolF ac (GoVal.fixedArr elems)
  | mapUnregistered (ac : Allocator) (handle : Nat) (vals : List GoVal) :
      handle ∉ ac.externalMap.slice → ViolF ac (GoVal.mapVal handle vals)
  | mapValue (ac : Allocator) (handle : Nat) (vals : List GoVal) (v : GoVal) :
      handle ∈ ac.externalMap.slice → v ∈ vals → ViolV ac v →
      ViolF ac (GoVal.mapVal handle vals)
  | strExternal (ac : Allocator) (dataAddr len : Nat) :
      0 < len → dataAddr ≠ 0 →
      dataAddr ∉ ac.externalString.slice →
      ac.checkPointerType dataAddr = PointerType.external →
      ViolF ac (GoVal.str dataAddr len)
  | funcUnregistered (ac : Allocator) (env : Nat) :
      env ≠ 0 → env ∉ ac.externalFunc.slice →
      ViolF ac (GoVal.funcVal env)
end

/-! The checker errors exactly on the violations the `ViolV`/`ViolF`
predicates describe. -/

mutual
theorem checkPtr_iff (ac : Allocator) (addr : Nat) (isAlloc : Bool)
    (target : Option GoVal) :
    (∃ e, checkPtr ac addr isAlloc target = Except.error e) ↔
      ViolV ac (GoVal.ptr addr isAlloc target) := by
  unfold checkPtr
  by_cases hg : addr ≠ nonNilPanickyAddr ∧ addr ≠ 0
  · rw [if_pos hg]
    by_cases hext : ac.checkPointerType addr = PointerType.external
    · rw [if_pos hext]
      exact ⟨fun _ => ViolV.ptrExternal ac addr isAlloc target hg.1 hg.2 hext,
        fun _ => ⟨_, rfl⟩⟩
    · rw [if_neg hext]
      cases isAlloc with
      | true =>
        simp only [if_true]
        constructor
        · rintro ⟨e, he⟩
          exact absurd he (by simp)
        · intro hv
          cases hv with
          | ptrExternal _ _ _ _ _ h => exact absurd h hext
      | false =>
        simp only [Bool.false_eq_true, if_false]
        by_cases hint : ac.checkPointerType addr = PointerType.lacInternal
        · rw [if_pos hint]
          cases target with
          | none =>
            constructor
            · rintro ⟨e, he⟩
              exact absurd he (by simp)
            · intro hv
              cases hv with
              | ptrExternal _ _ _ _ _ h => exact absurd h hext
          | some s =>
            constructor
            · rintro ⟨e, he⟩
              exact ViolV.ptrNested ac addr s hg.1 hg.2 hint
                ((checkVal_iff ac s).mp ⟨e, he⟩)
            · intro hv
              cases hv with
              | ptrExternal _ _ _ _ _ h => exact absurd h hext
              | ptrNested _ _ _ _ _ hs =>
                exact (checkVal_iff ac s).mpr hs
        · rw [if_neg hint]
          constructor
          · rintro ⟨e, he⟩
            exact absurd he (by simp)
          · intro hv
            cases hv with
            | ptrExternal _ _ _ _ _ h => exact absurd h hext
            | ptrNested _ _ _ _ h _ => exact absurd h hint
  · rw [if_neg hg]
    constructor
    · rintro ⟨e, he⟩
      exact absurd he (by simp)
    · intro hv
      cases hv with
      | ptrExternal _ _ _ h1 h2 _ => exact absurd ⟨h1, h2⟩ hg
      | ptrNested _ _ h1 h2 _ _ => exact absurd ⟨h1, h2⟩ hg
termination_by sizeOf target

theorem checkVal_iff (ac : Allocator) (v : GoVal) :
    (∃ e, checkVal ac v = Except.error e) ↔ ViolV ac v := by
  cases v with
  | ptr addr isAlloc target =>
    simp only [checkVal]
    exact checkPtr_iff ac addr isAlloc target
  | strukt name fields =>
    simp only [checkVal]
    rw [checkFields_iff ac name fields]
    constructor
    · rintro ⟨p, hp, hv⟩
      exact ViolV.structField ac name fields p.1 p.2 (by simpa using hp) hv
    · intro hv
      cases hv with
      | structField _ _ fname f hmem hf => exact ⟨(fname, f), hmem, hf⟩
  | num =>
    simp only [checkVal]
    constructor
    · rintro ⟨e, he⟩; exact absurd he (by simp)
    · intro hv; cases hv
  | slice dataAddr elems =>
    simp only [checkVal]
    constructor
    · rintro ⟨e, he⟩; exact absurd he (by simp)
    · intro hv; cases hv
  | fixedArr elems =>
    simp only [checkVal]
    constructor
    · rintro ⟨e, he⟩; exact absurd he (by simp)
    · intro hv; cases hv
  | mapVal handle vals =>
    simp only [checkVal]
    constructor
    · rintro ⟨e, he⟩; exact absurd he (by simp)
    · intro hv; cases hv
  | str dataAddr len =>
    simp only [checkVal]
    constructor
    · rintro ⟨e, he⟩; exact absurd he (by simp)
    · intro hv; cases hv
  | funcVal env =>
    simp only [checkVal]
    constructor
    · rintro ⟨e, he⟩; exact absurd he (by simp)
    · intro hv; cases hv
  | unsupported desc =>
    simp only [checkVal]
    constructor
    · rintro ⟨e, he⟩; exact absurd he (by simp)
    · intro hv; cases hv
termination_by sizeOf v

theorem checkList_iff (ac : Allocator) (l : List GoVal) :
    (∃ e, checkList ac l = Except.error e) ↔ ∃ v ∈ l, ViolV ac v := by
  cases l with
  | nil =>
    simp only [checkList]
    constructor
    · rintro ⟨e, he⟩; exact absurd he (by simp)
    · rintro ⟨v, hv, _⟩; simp at hv
  | cons v rest =>
    simp only [checkList]
    cases hv : checkVal ac v with
    | error e =>
      constructor
      · intro _
        exact ⟨v, by simp, (checkVal_iff ac v).mp ⟨e, hv⟩⟩
      · intro _
        exact ⟨e, rfl⟩
    | ok u =>
      have hnv : ¬ ViolV ac v := by
        intro h
        obtain ⟨e, he⟩ := (checkVal_iff ac v).mpr h
        rw [hv] at he
        exact absurd he (by simp)
      rw [checkList_iff ac rest]
      constructor
      · rintro ⟨w, hw, hvw⟩
        exact ⟨w, by simp [hw], hvw⟩
      · rintro ⟨w, hw, hvw⟩
        rcases List.mem_cons.mp hw with rfl | hw
        · exact absurd hvw hnv
        · exact ⟨w, hw, hvw⟩
termination_by sizeOf l

theorem checkFields_iff (ac : Allocator) (tpName : String)
    (fs : List (String × GoVal)) :
    (∃ e, checkFields ac tpName fs = Except.error e) ↔
      ∃ p ∈ fs, ViolF ac p.2 := by
  cases fs with
  | nil =>
    simp only [checkFields]
    constructor
    · rintro ⟨e, he⟩; exact absurd he (by simp)
    · rintro ⟨p, hp, _⟩; simp at hp
  | cons p rest =>
    obtain ⟨fname, f⟩ := p
    simp only [checkFields]
    cases hf : checkField ac tpName fname f with
    | error e =>
      constructor
      · intro _
        exact ⟨(fname, f), by simp, (checkField_iff ac tpName fname f).mp ⟨e, hf⟩⟩
      · intro _
        exact ⟨e, rfl⟩
    | ok u =>
      have hnf : ¬ ViolF ac f := by
        intro h
        obtain ⟨e, he⟩ := (checkField_iff ac tpName fname f).mpr h
        rw [hf] at he
        exact absurd he (by simp)
      rw [checkFields_iff ac tpName rest]
      constructor
      · rintro ⟨q, hq, hvq⟩
        exact ⟨q, by simp [hq], hvq⟩
      · rintro ⟨q, hq, hvq⟩
        rcases List.mem_cons.mp hq with rfl | hq
        · exact absurd hvq hnf
        · exact ⟨q, hq, hvq⟩
termination_by sizeOf fs

theorem checkField_iff (ac : Allocator) (tpName fname : String) (f : GoVal) :
    (∃ e, checkField ac tpName fname f = Except.error e) ↔ ViolF ac f := by
  cases f with
  | num =>
    simp only [checkField]
    constructor
    · rintro ⟨e, he⟩; exact absurd he (by simp)
    · intro hv; cases hv
  | strukt name fields =>
    simp only [checkField]
    constructor
    · rintro ⟨e, he⟩; exact absurd he (by simp)
    · intro hv; cases hv
  | unsupported desc =>
    simp only [checkField]
    constructor
    · rintro ⟨e, he⟩; exact absurd he (by simp)
    · intro hv; cases hv
  | ptr addr isAlloc target =>
    simp only [checkField]
    cases hp : checkPtr ac addr isAlloc target with
    | error e =>
      constructor
      · intro _
        exact ViolF.ptrField ac addr isAlloc target
          ((checkPtr_iff ac addr isAlloc target).mp ⟨e, hp⟩)
      · intro _
        exact ⟨_, rfl⟩
    | ok u =>
      constructor
      · rintro ⟨e, he⟩; exact absurd he (by simp)
      · intro hv
        cases hv with
        | ptrField _ _ _ h =>
          obtain ⟨e, he⟩ := (checkPtr_iff ac addr isAlloc target).mpr h
          rw [hp] at he
          exact absurd he (by simp)
  | fixedArr elems =>
    simp only [checkField]
    cases hl : checkList ac elems with
    | error e =>
      constructor
      · intro _
        obtain ⟨w, hw, hvw⟩ := (checkList_iff ac elems).mp ⟨e, hl⟩
        exact ViolF.arrElem ac elems w hw hvw
      · intro _
        exact ⟨_, rfl⟩
    | ok u =>
      constructor
      · rintro ⟨e, he⟩; exact absurd he (by simp)
      · intro hv
        cases hv with
        | arrElem _ w hw hvw =>
          obtain ⟨e, he⟩ := (checkList_iff ac elems).mpr ⟨w, hw, hvw⟩
          rw [hl] at he
          exact absurd he (by simp)
  | funcVal env =>
    simp only [checkField]
    by_cases he : env ≠ 0
    · rw [if_pos he]
      by_cases hr : env ∉ ac.externalFunc.slice
      · rw [if_pos hr]
        exact ⟨fun _ => ViolF.funcUnregistered ac env he hr, fun _ => ⟨_, rfl⟩⟩
      · rw [if_neg hr]
        constructor
        · rintro ⟨e, h⟩; exact absurd h (by simp)
        · intro hv
          cases hv with
          | funcUnregistered _ _ h => exact absurd h hr
    · rw [if_neg he]
      constructor
      · rintro ⟨e, h⟩; exact absurd h (by simp)
      · intro hv
        cases hv with
        | funcUnregistered _ h _ => exact absurd h he
  | str dataAddr len =>
    simp only [checkField]
    by_cases hg : 0 < len ∧ dataAddr ≠ 0
    · rw [if_pos hg]
      by_cases hc : dataAddr ∉ ac.externalString.slice ∧
          ac.checkPointerType dataAddr = PointerType.external
      · rw [if_pos hc]
        exact ⟨fun _ => ViolF.strExternal ac dataAddr len hg.1 hg.2 hc.1 hc.2,
          fun _ => ⟨_, rfl⟩⟩
      · rw [if_neg hc]
        constructor
        · rintro ⟨e, h⟩; exact absurd h (by simp)
        · intro hv
          cases hv with
          | strExternal _ _ _ _ h1 h2 => exact absurd ⟨h1, h2⟩ hc
    · rw [if_neg hg]
      constructor
      · rintro ⟨e, h⟩; exact absurd h (by simp)
      · intro hv
        cases hv with
        | strExternal _ _ h1 h2 _ _ => exact absurd ⟨h1, h2⟩ hg
  | mapVal handle vals =>
    simp only [checkField]
    by_cases hr : handle ∉ ac.externalMap.slice
    · rw [if_pos hr]
      exact ⟨fun _ => ViolF.mapUnregistered ac handle vals hr, fun _ => ⟨_, rfl⟩⟩
    · rw [if_neg hr]
      rw [Decidable.not_not] at hr
      cases hl : checkList ac vals with
      | error e =>
        constructor
        · intro _
          obtain ⟨w, hw, hvw⟩ := (checkList_iff ac vals).mp ⟨e, hl⟩
          exact ViolF.mapValue ac handle vals w hr hw hvw
        · intro _
          exact ⟨_, rfl⟩
      | ok u =>
        constructor
        · rintro ⟨e, h⟩; exact absurd h (by simp)
        · intro hv
          cases hv with
          | mapUnregistered _ _ h => exact absurd hr h
          | mapValue _ _ w _ hw hvw =>
            obtain ⟨e, he⟩ := (checkList_iff ac vals).mpr ⟨w, hw, hvw⟩
            rw [hl] at he
            exact absurd he (by simp)
  | slice dataAddr elems =>
    simp only [checkField]
    by_cases hg : 0 < elems.length ∧ dataAddr ≠ 0
    · rw [if_pos hg]
      by_cases hc : dataAddr ∉ ac.externalSlice.slice ∧
          ac.checkPointerType dataAddr = PointerType.external
      · rw [if_pos hc]
        exact ⟨fun _ => ViolF.sliceExternal ac dataAddr elems hg.1 hg.2 hc.1 hc.2,
          fun _ => ⟨_, rfl⟩⟩
      · rw [if_neg hc]
        by_cases hint : ac.checkPointerType dataAddr = PointerType.lacInternal
        · rw [if_pos hint]
          cases hl : checkList ac elems with
          | error e =>
            constructor
            · intro _
              obtain ⟨w, hw, hvw⟩ := (checkList_iff ac elems).mp ⟨e, hl⟩
              exact ViolF.sliceElem ac dataAddr elems w hg.1 hg.2 hint hw hvw
            · intro _
              exact ⟨_, rfl⟩
          | ok u =>
            constructor
            · rintro ⟨e, h⟩; exact absurd h (by simp)
            · intro hv
              cases hv with
              | sliceExternal _ _ _ _ h1 h2 => exact absurd ⟨h1, h2⟩ hc
              | sliceElem _ _ w _ _ _ hw hvw =>
                obtain ⟨e, he⟩ := (checkList_iff ac elems).mpr ⟨w, hw, hvw⟩
                rw [hl] at he
                exact absurd he (by simp)
        · rw [if_neg hint]
          constructor
          · rintro ⟨e, h⟩; exact absurd h (by simp)
          · intro hv
            cases hv with
            | sliceExternal _ _ _ _ h1 h2 => exact absurd ⟨h1, h2⟩ hc
            | sliceElem _ _ w _ _ h _ _ => exact absurd h hint
    · rw [if_neg hg]
      constructor
      · rintro ⟨e, h⟩; exact absurd h (by simp)
      · intro hv
        cases hv with
        | sliceExternal _ _ h1 h2 _ _ => exact absurd ⟨h1, h2⟩ hg
        | sliceElem _ _ w h1 h2 _ _ _ => exact absurd ⟨h1, h2⟩ hg
termination_by sizeOf f
end

mutual
/-- The entries `checkRecursively` adds to `ctx.checked`: one per internal
struct pointer whose recursion returned without error. (The code adds the
entry right after the recursive call returns nil; on an error the whole
check aborts at once, so the collection is only ever consulted after fully
successful traversals.) -/
def collectPtr (ac : Allocator) (addr : Nat) (isAlloc : Bool)
    (target : Option GoVal) : List GoVal :=
  if addr ≠ nonNilPanickyAddr ∧ addr ≠ 0 then
    if ac.checkPointerType addr = PointerType.external then []
    else if isAlloc then []
    else if ac.checkPointerType addr = PointerType.lacInternal then
      match target with
      | some s => collectVal ac s ++ [GoVal.ptr addr isAlloc (some s)]
      | none => []
    else []
  else []
termination_by sizeOf target

def collectVal (ac : Allocator) : GoVal → List GoVal
  | GoVal.ptr addr isAlloc target => collectPtr ac addr isAlloc target
  | GoVal.strukt _ fields => collectFields ac fields
  | _ => []
termination_by v => sizeOf v

def collectList (ac : Allocator) : List GoVal → List GoVal
  | [] => []
  | v :: rest => collectVal ac v ++ collectList ac rest
termination_by l => sizeOf l

def collectFields (ac : Allocator) : List (String × GoVal) → List GoVal
  | [] => []
  | (_, f) :: rest => collectField ac f ++ collectFields ac rest
termination_by fs => sizeOf fs

def collectField (ac : Allocator) : GoVal → List GoVal
  | GoVal.ptr addr isAlloc target => collectPtr ac addr isAlloc target
  | GoVal.slice dataAddr elems =>
    if 0 < elems.length ∧ dataAddr ≠ 0 then
      if ac.checkPointerType dataAddr = PointerType.lacInternal then
        collectList ac elems
      else []
    else []
  | GoVal.fixedArr elems => collectList ac elems
  | GoVal.mapVal handle vals =>
    if handle ∉ ac.externalMap.slice then [] else collectList ac vals
  | _ => []
termination_by f => sizeOf f
end

/-! A collected entry always re-checks clean: the checker is deterministic
and only collects pointers whose traversal succeeded. -/

mutual
theorem collectPtr_ok (ac : Allocator) (addr : Nat) (isAlloc : Bool)
    (target : Option GoVal)
    (h : checkPtr ac addr isAlloc target = Except.ok ()) :
    ∀ x ∈ collectPtr ac addr isAlloc target, checkVal ac x = Except.ok () := by
  intro x hx
  unfold collectPtr at hx
  by_cases hg : addr ≠ nonNilPanickyAddr ∧ addr ≠ 0
  · rw [if_pos hg] at hx
    by_cases hext : ac.checkPointerType addr = PointerType.external
    · rw [if_pos hext] at hx
      simp at hx
    · rw [if_neg hext] at hx
      cases isAlloc with
      | true => simp at hx
      | false =>
        simp only [Bool.false_eq_true, if_false] at hx
        by_cases hint : ac.checkPointerType addr = PointerType.lacInternal
        · rw [if_pos hint] at hx
          cases target with
          | none => simp at hx
          | some s =>
            have hs : checkVal ac s = Except.ok () := by
              unfold checkPtr at h
              rw [if_pos hg, if_neg hext] at h
              simp only [Bool.false_eq_true, if_false] at h
              rw [if_pos hint] at h
              exact h
            rcases List.mem_append.mp hx with hx | hx
            · exact collectVal_ok ac s hs x hx
            · simp only [List.mem_singleton] at hx
              subst hx
              simp only [checkVal]
              unfold checkPtr
              rw [if_pos hg, if_neg hext]
              simp only [Bool.false_eq_true, if_false]
              rw [if_pos hint]
              exact hs
        · rw [if_neg hint] at hx
          simp at hx
  · rw [if_neg hg] at hx
    simp at hx
termination_by sizeOf target

theorem collectVal_ok (ac : Allocator) (v : GoVal)
    (h : checkVal ac v = Except.ok ()) :
    ∀ x ∈ collectVal ac v, checkVal ac x = Except.ok () := by
  intro x hx
  cases v with
  | ptr addr isAlloc target =>
    simp only [collectVal] at hx
    simp only [checkVal] at h
    exact collectPtr_ok ac addr isAlloc target h x hx
  | strukt name fields =>
    simp only [collectVal] at hx
    simp only [checkVal] at h
    exact collectFields_ok ac name fields h x hx
  | num => simp [collectVal] at hx
  | slice d e => simp [collectVal] at hx
  | fixedArr e => simp [collectVal] at hx
  | mapVal hd v2 => simp [collectVal] at hx
  | str d l => simp [collectVal] at hx
  | funcVal e => simp [collectVal] at hx
  | unsupported d => simp [collectVal] at hx
termination_by sizeOf v

theorem collectList_ok (ac : Allocator) :
    ∀ (l : List GoVal), checkList ac l = Except.ok () →
    ∀ x ∈ collectList ac l, checkVal ac x = Except.ok ()
  | [], _, x, hx => by simp [collectList] at hx
  | v :: rest, h, x, hx => by
    simp only [collectList] at hx
    simp only [checkList] at h
    cases hv : checkVal ac v with
    | error e => rw [hv] at h; exact absurd h (by simp)
    | ok u =>
      rw [hv] at h
      rcases List.mem_append.mp hx with hx | hx
      · exact collectVal_ok ac v (by cases u; exact hv) x hx
      · exact collectList_ok ac rest h x hx
termination_by l => sizeOf l

theorem collectFields_ok (ac : Allocator) (tpName : String) :
    ∀ (fs : List (String × GoVal)), checkFields ac tpName fs = Except.ok () →
    ∀ x ∈ collectFields ac fs, checkVal ac x = Except.ok ()
  | [], _, x, hx => by simp [collectFields] at hx
  | (fname, f) :: rest, h, x, hx => by
    simp only [collectFields] at hx
    simp only [checkFields] at h
    cases hf : checkField ac tpName fname f with
    | error e => rw [hf] at h; exact absurd h (by simp)
    | ok u =>
      rw [hf] at h
      rcases List.mem_append.mp hx with hx | hx
      · exact collectField_ok ac tpName fname f (by cases u; exact hf) x hx
      · exact collectFields_ok ac tpName rest h x hx
termination_by fs => sizeOf fs

theorem collectField_ok (ac : Allocator) (tpName fname : String) (f : GoVal)
    (h : checkField ac tpName fname f = Except.ok ()) :
    ∀ x ∈ collectField ac f, checkVal ac x = Except.ok () := by
  intro x hx
  cases f with
  | num => simp [collectField] at hx
  | str d l => simp [collectField] at hx
  | funcVal e => simp [collectField] at hx
  | strukt n fl => simp [collectField] at hx
  | unsupported d => simp [collectField] at hx
  | ptr addr isAlloc target =>
    simp only [collectField] at hx
    simp only [checkField] at h
    cases hp : checkPtr ac addr isAlloc target with
    | error e => rw [hp] at h; exact absurd h (by simp)
    | ok u =>
      exact collectPtr_ok ac addr isAlloc target (by cases u; exact hp) x hx
  | fixedArr elems =>
    simp only [collectField] at hx
    simp only [checkField] at h
    cases hl : checkList ac elems with
    | error e => rw [hl] at h; exact absurd h (by simp)
    | ok u =>
      exact collectList_ok ac elems (by cases u; exact hl) x hx
  | mapVal handle vals =>
    simp only [collectField] at hx
    simp only [checkField] at h
    by_cases hr : handle ∉ ac.externalMap.slice
    · rw [if_pos hr] at hx
      simp at hx
    · rw [if_neg hr] at hx
      rw [if_neg hr] at h
      cases hl : checkList ac vals with
      | error e => rw [hl] at h; exact absurd h (by simp)
      | ok u =>
        exact collectList_ok ac vals (by cases u; exact hl) x hx
  | slice dataAddr elems =>
    simp only [collectField] at hx
    simp only [checkField] at h
    by_cases hg : 0 < elems.length ∧ dataAddr ≠ 0
    · rw [if_pos hg] at hx h
      by_cases hint : ac.checkPointerType dataAddr = PointerType.lacInternal
      · rw [if_pos hint] at hx
        have hnc : ¬ (dataAddr ∉ ac.externalSlice.slice ∧
            ac.checkPointerType dataAddr = PointerType.external) := by
          intro hcon
          rw [hint] at hcon
          exact absurd hcon.2 (by simp)
        rw [if_neg hnc, if_pos hint] at h
        cases hl : checkList ac elems with
        | error e => rw [hl] at h; exact absurd h (by simp)
        | ok u =>
          exact collectList_ok ac elems (by cases u; exact hl) x hx
      · rw [if_neg hint] at hx
        simp at hx
    · rw [if_neg hg] at hx
      simp at hx
termination_by sizeOf f
end

/-- The root loop of `debugCheck` in check-only mode
(`CheckExternalPointers`, `invalidatePointers = false`): visit the
registered roots in reverse registration order, skip roots already in the
checked set, abort with the first error, and after each successful root add
its collected internal struct pointers to the checked set. (With
invalidation on, the same loop additionally poisons fields as it goes;
poisoning mutates the object graph through aliases, which a value-tree
embedding cannot express, so the model covers the checking semantics.) -/
def debugCheckRun (ac : Allocator) : List GoVal → List GoVal → Option String
  | [], _ => none
  | r :: rest, checked =>
    if r ∈ checked then debugCheckRun ac rest checked
    else
      match checkVal ac r with
      | Except.error e => some e
      | Except.ok _ => debugCheckRun ac rest (checked ++ collectVal ac r)

/-- `debugCheck` over the registered roots (newest first). -/
def Allocator.debugCheck (ac : Allocator) : Option String :=
  debugCheckRun ac ac.dbgScanObjs.reverse []

theorem debugCheckRun_iff (ac : Allocator) :
    ∀ (roots checked : List GoVal),
    (∀ x ∈ checked, checkVal ac x = Except.ok ()) →
    ((∃ e, debugCheckRun ac roots checked = some e) ↔
      ∃ r ∈ roots, ViolV ac r) := by
  intro roots
  induction roots with
  | nil =>
    intro checked _
    simp [debugCheckRun]
  | cons r rest ih =>
    intro checked hc
    simp only [debugCheckRun]
    by_cases hmem : r ∈ checked
    · rw [if_pos hmem]
      have hok := hc r hmem
      have hnr : ¬ ViolV ac r := by
        intro h
        obtain ⟨e, he⟩ := (checkVal_iff ac r).mpr h
        rw [hok] at he
        exact absurd he (by simp)
      rw [ih checked hc]
      constructor
      · rintro ⟨w, hw, hvw⟩
        exact ⟨w, by simp [hw], hvw⟩
      · rintro ⟨w, hw, hvw⟩
        rcases List.mem_cons.mp hw with rfl | hw
        · exact absurd hvw hnr
        · exact ⟨w, hw, hvw⟩
    · rw [if_neg hmem]
      cases hv : checkVal ac r with
      | error e =>
        constructor
        · intro _
          exact ⟨r, by simp, (checkVal_iff ac r).mp ⟨e, hv⟩⟩
        · intro _
          exact ⟨e, rfl⟩
      | ok u =>
        have hok : checkVal ac r = Except.ok () := by cases u; exact hv
        have hnr : ¬ ViolV ac r := by
          intro h
          obtain ⟨e, he⟩ := (checkVal_iff ac r).mpr h
          rw [hok] at he
          exact absurd he (by simp)
        rw [ih (checked ++ collectVal ac r) ?_]
        · constructor
          · rintro ⟨w, hw, hvw⟩
            exact ⟨w, by simp [hw], hvw⟩
          · rintro ⟨w, hw, hvw⟩
            rcases List.mem_cons.mp hw with rfl | hw
            · exact absurd hvw hnr
            · exact ⟨w, hw, hvw⟩
        · intro x hx
          rcases List.mem_append.mp hx with hx | hx
          · exact hc x hx
          · exact collectVal_ok ac r hok x hx

/-- C4 (amended): the check-only `debugCheck` pass reports an error — whose
message carries the `Type.field` path built by `checkField` — if and only
if some registered root transitively holds a violating field in the sense
of `ViolV`/`ViolF`: a non-nil pointer classifying as external (outside
every owned chunk, not the arena's own control block, not in the pointer
registry); a nonempty slice or string with a non-nil backing address that
classifies as external and is not in the matching registry; a map whose
handle is not in the map registry; or a function with a non-nil environment
pointer not in the function registry — where containers are only descended
into per the checker's own rules (internal struct pointers, elements of
internal slices, values of registered maps, fixed-array elements). -/
theorem C4_checker_error_iff_violation_amended (ac : Allocator) :
    (∃ e, ac.debugCheck = some e) ↔ ∃ r ∈ ac.dbgScanObjs, ViolV ac r := by
  unfold Allocator.debugCheck
  rw [debugCheckRun_iff ac _ [] (by simp)]
  constructor
  · rintro ⟨r, hr, hv⟩
    exact ⟨r, by simpa using hr, hv⟩
  · rintro ⟨r, hr, hv⟩
    exact ⟨r, by simpa using hr, hv⟩

/-- An empty `WeakUniqQueue` with the allocator's strong-uniqueness prefix
length 32. -/
def wuq0 : WeakUniqQueue := { slice := [], strongUniqRange := 32 }

/-- Arena for the C4 counterexample: no chunks, all registries empty, one
registered root: a struct with a single zero-length slice field whose
backing address 999 is external and unregistered. -/
def ac4cex : Allocator :=
  { disabled := false, valid := true, refCnt := 1, chunks := [],
    curChunk := none, externalPtr := wuq0, externalSlice := wuq0,
    externalString := wuq0, externalMap := wuq0, externalFunc := wuq0,
    dbgScanObjs := [GoVal.strukt "S" [("f", GoVal.slice 999 [])]],
    selfAddr := 64 }

/-- C4, counterexample: the root's only field holds a slice whose backing
address is neither inside an owned chunk, nor the arena's control block,
nor recorded in any registry — by the claim's "if and only if" the check
must raise a fatal error naming `S.f` — yet the checker skips every slice
whose length is zero and reports nothing. -/
theorem C4_zero_len_slice_cex :
    ac4cex.debugCheck = none ∧
    ac4cex.checkPointerType 999 = PointerType.external ∧
    999 ∉ ac4cex.externalSlice.slice ∧ 999 ∉ ac4cex.externalPtr.slice := by
  refine ⟨?_, by rfl, by simp [ac4cex, wuq0], by simp [ac4cex, wuq0]⟩
  simp [Allocator.debugCheck, ac4cex, debugCheckRun, checkVal, checkFields,
    checkField]

/-! ### `keepAlive` (Attach) and `reset` (newest-generation core.go) -/

/-- An `interface{}` argument to `keepAlive`, as the function inspects it:
its reflected kind, the interface data pointer `d = data(ptr)`, and the
payload the matching registry records — for slices/strings the backing
address read through `d`, for functions a handle for the interface value
itself. `kint` stands for a plain integer (or any other kind outside the
five supported ones). -/
inductive KAValue where
  | kptr (d : Nat)
  | kslice (d : Nat) (dataAddr : Nat)
  | kstring (d : Nat) (dataAddr : Nat)
  | kmap (d : Nat)
  | kfunc (d : Nat) (selfHandle : Nat)
  | kint (d : Nat)
deriving DecidableEq

def KAValue.dAddr : KAValue → Nat
  | KAValue.kptr d => d
  | KAValue.kslice d _ => d
  | KAValue.kstring d _ => d
  | KAValue.kmap d => d
  | KAValue.kfunc d _ => d
  | KAValue.kint d => d

/-- `keepAlive(ptr)`: no-op when the arena is disabled or the interface
data pointer is nil; otherwise dispatch on the reflected kind and append to
the matching external registry; any other kind panics with an
"unsupported type" error, having touched no registry. -/
def Allocator.keepAlive (ac : Allocator) (v : KAValue) :
    Allocator × Option String :=
  if ac.disabled then (ac, none)
  else if v.dAddr = 0 then (ac, none)
  else
    match v with
    | KAValue.kptr d => ({ ac with externalPtr := ac.externalPtr.Put d }, none)
    | KAValue.kslice _ dataAddr =>
        ({ ac with externalSlice := ac.externalSlice.Put dataAddr }, none)
    | KAValue.kstring _ dataAddr =>
        ({ ac with externalString := ac.externalString.Put dataAddr }, none)
    | KAValue.kmap d => ({ ac with externalMap := ac.externalMap.Put d }, none)
    | KAValue.kfunc _ selfHandle =>
        ({ ac with externalFunc := ac.externalFunc.Put selfHandle }, none)
    | KAValue.kint _ => (ac, some "unsupported type: int")

/-- C9: on every enabled arena, `keepAlive` (and therefore the public
`Attach`) applied to a value whose kind is not pointer, slice, string, map
or function — here a plain integer, whose boxed interface data pointer is
non-nil — panics with an "unsupported type" error and leaves the arena
state, in particular every external registry, unchanged. -/
theorem C9_keepalive_unsupported_kind (ac : Allocator) (d : Nat)
    (hdis : ac.disabled = false) (hd : d ≠ 0) :
    ac.keepAlive (KAValue.kint d) = (ac, some "unsupported type: int") := by
  unfold Allocator.keepAlive
  rw [hdis]
  simp only [Bool.false_eq_true, if_false]
  rw [if_neg (by simpa [KAValue.dAddr] using hd)]

/-- Closed witness for `C9_keepalive_unsupported_kind` on a concrete
enabled arena. -/
theorem C9_keepalive_unsupported_kind_witness :
    ac4cex.keepAlive (KAValue.kint 5) = (ac4cex, some "unsupported type: int") :=
  C9_keepalive_unsupported_kind ac4cex 5 rfl (by omega)

/-- Non-debug `Put` as a total state transformer (the duplicate check only
fires in debug mode). -/
def Pool.putND (p : Pool Chunk) (v : Chunk) : Pool Chunk :=
  if p.cap = 0 ∨ p.pool.length < p.cap then { p with pool := p.pool ++ [v] }
  else p

theorem Pool.Put_nd (p : Pool Chunk) (v : Chunk) (hd : p.debug = false) :
    ∃ b, p.Put v = Except.ok (b, p.putND v) := by
  unfold Pool.Put Pool.putND
  rw [if_neg (by rw [hd]; simp)]
  by_cases hc : p.cap = 0 ∨ p.pool.length < p.cap
  · rw [if_pos (Or.inl hc), if_pos hc]
    exact ⟨true, rfl⟩
  · rw [if_neg (by rw [hd]; simpa using hc), if_neg hc]
    exact ⟨false, rfl⟩

theorem Pool.putND_debug (p : Pool Chunk) (v : Chunk) :
    (p.putND v).debug = p.debug := by
  unfold Pool.putND
  split <;> rfl

/-- The chunk loop of `reset`: each chunk's `Len` is truncated to zero;
nominal chunks (`Cap == ChunkSize`) are offered back to the chunk pool in
non-debug mode (in debug mode every chunk goes to the diagnosis
`sync.Pool`, which the model treats as a sink); oversized chunks are simply
dropped for the garbage collector. -/
def resetChunks (debugMode : Bool) (chunkSize : Nat) :
    Pool Chunk → List Chunk → Except String (Pool Chunk)
  | pool, [] => Except.ok pool
  | pool, ck :: rest =>
    if ck.cap = chunkSize then
      if debugMode then resetChunks debugMode chunkSize pool rest
      else
        match pool.Put { ck with len := 0 } with
        | Except.error e => Except.error e
        | Except.ok (_, pool1) => resetChunks debugMode chunkSize pool1 rest
    else resetChunks debugMode chunkSize pool rest

/-- `reset()`: no-op on a disabled arena. Otherwise: in debug mode run the
safety checker first (a detected violation panics and aborts the reset; the
invalidation side of `debugCheck(true)` poisons fields and is outside this
value model) and clear the root list; truncate and recycle the chunks;
clear the chunk list and the current-chunk pointer; clear all five external
registries; restore the disabled flag from the process-wide kill switch
(`DisableAllLac`); drop validity; and store 1 into the share count. -/
def Allocator.reset (ac : Allocator) (debugMode killSwitch : Bool)
    (chunkSize : Nat) (chunkPool : Pool Chunk) :
    Except String (Allocator × Pool Chunk) :=
  if ac.disabled then Except.ok (ac, chunkPool)
  else
    match (if debugMode then ac.debugCheck else none) with
    | some e => Except.error e
    | none =>
      match resetChunks debugMode chunkSize chunkPool ac.chunks with
      | Except.error e => Except.error e
      | Except.ok pool1 =>
        Except.ok
          ({ ac with
              chunks := [],
              curChunk := none,
              externalPtr := ac.externalPtr.Clear,
              externalSlice := ac.externalSlice.Clear,
              externalMap := ac.externalMap.Clear,
              externalString := ac.externalString.Clear,
              externalFunc := ac.externalFunc.Clear,
              dbgScanObjs := if debugMode then [] else ac.dbgScanObjs,
              disabled := killSwitch,
              valid := false,
              refCnt := 1 }, pool1)

theorem resetChunks_nd (chunkSize : Nat) :
    ∀ (chunks : List Chunk) (pool : Pool Chunk), pool.debug = false →
    resetChunks false chunkSize pool chunks =
      Except.ok (((chunks.filter (fun ck => ck.cap = chunkSize)).map
        (fun ck => { ck with len := 0 })).foldl Pool.putND pool) := by
  intro chunks
  induction chunks with
  | nil => intro pool _; rfl
  | cons ck rest ih =>
    intro pool hd
    simp only [resetChunks]
    by_cases hcap : ck.cap = chunkSize
    · rw [if_pos hcap]
      simp only [Bool.false_eq_true, if_false]
      obtain ⟨b, hput⟩ := Pool.Put_nd pool { ck with len := 0 } hd
      rw [hput]
      show resetChunks false chunkSize (pool.putND { ck with len := 0 }) rest = _
      rw [ih (pool.putND { ck with len := 0 })
        (by rw [Pool.putND_debug]; exact hd)]
      simp [List.filter_cons, hcap]
    · rw [if_neg hcap]
      rw [ih pool hd]
      simp [List.filter_cons, hcap]

/-- C5: `reset()` on an enabled, non-debug arena completes without panic;
the chunks offered back to the Chunk Pool are exactly those whose capacity
equals the nominal chunk size, each truncated to zero used length (the
pool itself accepts them up to its capacity, per `Pool.putND`); afterwards
the chunk list is empty, the current-chunk pointer is nil, all five
external registries are empty, the share count is 1, and the disabled flag
equals the process-wide kill switch. On a disabled arena `reset()` changes
nothing. -/
theorem C5_reset_state (ac : Allocator) (killSwitch : Bool)
    (chunkSize : Nat) (chunkPool : Pool Chunk)
    (hdis : ac.disabled = false) (hpd : chunkPool.debug = false) :
    (∃ ac1 pool1, ac.reset false killSwitch chunkSize chunkPool =
        Except.ok (ac1, pool1) ∧
      ac1.chunks = [] ∧ ac1.curChunk = none ∧
      ac1.externalPtr.slice = [] ∧ ac1.externalSlice.slice = [] ∧
      ac1.externalString.slice = [] ∧ ac1.externalMap.slice = [] ∧
      ac1.externalFunc.slice = [] ∧
      ac1.refCnt = 1 ∧ ac1.disabled = killSwitch ∧
      pool1 = ((ac.chunks.filter (fun ck => ck.cap = chunkSize)).map
          (fun ck => { ck with len := 0 })).foldl Pool.putND chunkPool) ∧
    (∀ (b : Allocator) (dm : Bool), b.disabled = true →
      Allocator.reset b dm killSwitch chunkSize chunkPool =
        Except.ok (b, chunkPool)) := by
  constructor
  · unfold Allocator.reset
    rw [hdis]
    simp only [Bool.false_eq_true, if_false]
    rw [resetChunks_nd chunkSize ac.chunks chunkPool hpd]
    exact ⟨_, _, rfl, rfl, rfl, rfl, rfl, rfl, rfl, rfl, rfl, rfl, rfl⟩
  · intro b dm hb
    unfold Allocator.reset
    rw [hb]
    simp

/-- Chunk pool and arena for the C5 witness: one nominal chunk (recycled)
and one oversized chunk (dropped). -/
def cp5 : Pool Chunk :=
  { name := "LacChunkPool", newFn := fun _ => { base := 0, len := 0, cap := 8192 },
    pool := [], cap := 4, newCnt := 0, debug := false, maxNew := 0,
    equalFn := none }

def ac5w : Allocator :=
  { ac4cex with chunks := [{ base := 0, len := 16, cap := 8192 },
      { base := 8192, len := 8, cap := 100 }], curChunk := some 0 }

/-- Closed witness for `C5_reset_state` at a concrete arena and pool. -/
theorem C5_reset_state_witness :
    (∃ ac1 pool1, ac5w.reset false true 8192 cp5 = Except.ok (ac1, pool1) ∧
      ac1.chunks = [] ∧ ac1.curChunk = none ∧
      ac1.externalPtr.slice = [] ∧ ac1.externalSlice.slice = [] ∧
      ac1.externalString.slice = [] ∧ ac1.externalMap.slice = [] ∧
      ac1.externalFunc.slice = [] ∧
      ac1.refCnt = 1 ∧ ac1.disabled = true ∧
      pool1 = ((ac5w.chunks.filter (fun ck => ck.cap = 8192)).map
          (fun ck => { ck with len := 0 })).foldl Pool.putND cp5) ∧
    (∀ (b : Allocator) (dm : Bool), b.disabled = true →
      Allocator.reset b dm true 8192 cp5 = Except.ok (b, cp5)) :=
  C5_reset_state ac5w true 8192 cp5 rfl rfl

end LinearAc
